import Mathlib

/-!
Shallow embedding of the translation request pipeline of
`ts-translator-auto-core` (`src/translator.ts`), together with proofs about
the claims on its specification.

Strings are modelled as `List Char`.  The JavaScript regular expressions used
by the source are embedded as bespoke backtracking matchers with the same
greedy, leftmost-match semantics; `String.prototype.replace` with a global
regex is a single left-to-right scan over the original string.
-/

/-- Strings of the embedded program, as lists of characters. -/
abbrev Str := List Char

/-- Shorthand turning a Lean string literal into the model string type. -/
def str (s : String) : Str := s.data

/-- The opening-brace character of an interpolation marker. -/
def lbrace : Char := Char.ofNat 123

/-- The closing-brace character of an interpolation marker. -/
def rbrace : Char := Char.ofNat 125

/-- Character class `[0-9]` of the source's regexes. -/
def isDigitC (c : Char) : Bool := 48 ≤ c.toNat && c.toNat ≤ 57

/-- Character class `[a-z]`. -/
def isLowerC (c : Char) : Bool := 97 ≤ c.toNat && c.toNat ≤ 122

/-- Character class `[A-Z]`. -/
def isUpperC (c : Char) : Bool := 65 ≤ c.toNat && c.toNat ≤ 90

/-- Character class `[a-z0-9_]` used by the delimiter-cleanup regexes. -/
def wordCls (c : Char) : Bool := isLowerC c || isDigitC c || c = '_'

/-- Character class `[a-z0-9]` used by the partial-variable regexes. -/
def alnumLower (c : Char) : Bool := isLowerC c || isDigitC c

/-- Character class `[a-zA-Z0-9.]` of the source-key pattern. -/
def keyCls (c : Char) : Bool := isLowerC c || isUpperC c || isDigitC c || c = '.'

/-- Character class `[؀-ۿ]` (Arabic block) of the source-key pattern. -/
def arabCls (c : Char) : Bool := 1536 ≤ c.toNat && c.toNat ≤ 1791

/-- JavaScript whitespace (the `\s` class and `String.prototype.trim`). -/
def jsSpace (c : Char) : Bool :=
  c.toNat = 9 || c.toNat = 10 || c.toNat = 11 || c.toNat = 12 || c.toNat = 13 ||
  c.toNat = 32 || c.toNat = 160 || c.toNat = 5760 ||
  (8192 ≤ c.toNat && c.toNat ≤ 8202) ||
  c.toNat = 8232 || c.toNat = 8233 || c.toNat = 8239 || c.toNat = 8287 ||
  c.toNat = 12288 || c.toNat = 65279

/-- `String.prototype.trim`: strip JS whitespace from both ends. -/
def jsTrim (s : Str) : Str :=
  ((s.dropWhile jsSpace).reverse.dropWhile jsSpace).reverse

/-- JavaScript truthiness of a string: non-empty. -/
def jsTruthy (s : Str) : Bool := !s.isEmpty

/-- `a || d` on a possibly-undefined JS number (`0` and `undefined` are falsy). -/
def jsOrNat (v : Option Nat) (d : Nat) : Nat :=
  match v with
  | some n => if n = 0 then d else n
  | none => d

/-- Match a literal at the head of the input, returning the remainder. -/
def dropLit (t s : Str) : Option Str :=
  if t.isPrefixOf s then some (s.drop t.length) else none

/-- Greedy Kleene star over a character class with backtracking into the
continuation, as a JS regex engine would execute `cls*` followed by the rest
of the pattern. -/
def gStar (cls : Char → Bool) (tail : Str → Option Str) : Str → Option Str
  | [] => tail []
  | c :: s => if cls c then (gStar cls tail s) <|> tail (c :: s) else tail (c :: s)

/-- Greedy `cls+` with backtracking into the continuation. -/
def gPlus (cls : Char → Bool) (tail : Str → Option Str) : Str → Option Str
  | [] => none
  | c :: s => if cls c then gStar cls tail s else none

/-- `s.includes(t)` of JavaScript. -/
def containsLit (t : Str) : Str → Bool
  | [] => t.isEmpty
  | s@(_ :: s') => t.isPrefixOf s || containsLit t s'

/-- `s.indexOf(t)` of JavaScript, as an optional index. -/
def indexOfLit (t : Str) : Str → Option Nat
  | [] => if t.isEmpty then some 0 else none
  | s@(_ :: s') =>
    if t.isPrefixOf s then some 0 else (indexOfLit t s').map (· + 1)

/-- One pass of a global-regex `replace`: scan left to right over the original
string, substituting `repl` for each non-overlapping match.  The fuel is the
length of the scanned string. -/
def scanRepl (m : Str → Option Str) (repl : Str) : Nat → Str → Str
  | _, [] => []
  | 0, s => s
  | f + 1, c :: s =>
    match m (c :: s) with
    | some rem =>
      if rem.length < s.length + 1 then repl ++ scanRepl m repl f rem
      else c :: scanRepl m repl f s
    | none => c :: scanRepl m repl f s

/-- `text.replace(pattern, repl)` with a global regex. -/
def jsReplaceAll (m : Str → Option Str) (repl : Str) (s : Str) : Str :=
  scanRepl m repl s.length s

/-- Collect all matches of a global regex in scan order (`text.match(p)`). -/
def scanMatches (m : Str → Option Str) : Nat → Str → List Str
  | _, [] => []
  | 0, _ => []
  | f + 1, c :: s =>
    match m (c :: s) with
    | some rem =>
      if rem.length < s.length + 1 then
        ((c :: s).take (s.length + 1 - rem.length)) :: scanMatches m f rem
      else scanMatches m f s
    | none => scanMatches m f s

/-- All matches of a pattern in a string, in order. -/
def jsMatchAll (m : Str → Option Str) (s : Str) : List Str :=
  scanMatches m s.length s

/-- `pattern.test(s)`: does the pattern match anywhere? -/
def jsTest (m : Str → Option Str) (s : Str) : Bool :=
  !(jsMatchAll m s).isEmpty

/-- Number of matches, as in `(s.match(p) || []).length`. -/
def jsCount (m : Str → Option Str) (s : Str) : Nat :=
  (jsMatchAll m s).length

/-- `text.replace(t, repl)` with a literal string: first occurrence only. -/
def rfGo (t repl : Str) : Nat → Str → Str
  | _, [] => []
  | 0, s => s
  | f + 1, s@(c :: s') =>
    if t.isPrefixOf s && !t.isEmpty then repl ++ s.drop t.length
    else c :: rfGo t repl f s'

/-- Replace the first occurrence of a literal substring. -/
def replaceFirstLit (t repl s : Str) : Str := rfGo t repl s.length s

/-- Replace every occurrence of a literal substring (a global regex built from
a literal with no metacharacters). -/
def replaceAllLit (t repl s : Str) : Str := jsReplaceAll (dropLit t) repl s

/-- ECMAScript substitution of a string replacement for a pattern with no
capture groups (`GetSubstitution`): two dollars collapse to one, a dollar
before an ampersand inserts the matched substring, a dollar before a
backquote (code 96) inserts the part of the subject before the match, a
dollar before an apostrophe (code 39) inserts the part after it; every other
sequence — including a dollar before a digit, as the pattern has no capture
groups — stays literal. -/
def dollarSub (matched pre post : Str) : Nat → Str → Str
  | 0, r => r
  | _ + 1, [] => []
  | f + 1, c :: rest =>
    if c = '$' then
      match rest with
      | [] => ['$']
      | d :: r2 =>
        if d = '$' then '$' :: dollarSub matched pre post f r2
        else if d = '&' then matched ++ dollarSub matched pre post f r2
        else if d = Char.ofNat 96 then pre ++ dollarSub matched pre post f r2
        else if d = Char.ofNat 39 then post ++ dollarSub matched pre post f r2
        else '$' :: dollarSub matched pre post f rest
    else c :: dollarSub matched pre post f rest

/-- One pass of a global-regex `replace` with ECMAScript substitution applied
to the replacement string: `whole` is the subject string and `pos` the scan
position of the current suffix inside it. -/
def scanReplS (m : Str → Option Str) (repl whole : Str) : Nat → Nat → Str → Str
  | _, _, [] => []
  | 0, _, s => s
  | f + 1, pos, c :: s =>
    match m (c :: s) with
    | some rem =>
      if rem.length < s.length + 1 then
        dollarSub ((c :: s).take (s.length + 1 - rem.length)) (whole.take pos) rem
            repl.length repl ++
          scanReplS m repl whole f (pos + (s.length + 1 - rem.length)) rem
      else c :: scanReplS m repl whole f (pos + 1) s
    | none => c :: scanReplS m repl whole f (pos + 1) s

/-- `text.replace(pattern, repl)` with a global regex, including the
substitution sequences of the replacement string. -/
def jsReplaceAllS (m : Str → Option Str) (repl s : Str) : Str :=
  scanReplS m repl s s.length 0 s

/-- Replace every occurrence of a literal substring, with ECMAScript
substitution applied to the replacement string. -/
def replaceAllLitS (t repl s : Str) : Str := jsReplaceAllS (dropLit t) repl s

/-- The 9-character internal-marker core `DEEPL_VAR`; every variable token of
an instance contains it, and the claims' "no pre-existing internal marker
substrings" hypothesis is its absence. -/
def marker9 : Str := str "DEEPL_VAR"

/-- Matcher of `/__DEEPL_CTX[a-z0-9_]*__/`. -/
def ctxTokM (s : Str) : Option Str :=
  (dropLit (str "__DEEPL_CTX") s).bind (gStar wordCls (dropLit (str "__")))

/-- Matcher of `/__DEEPL_VAR[a-z0-9_]*__/`. -/
def varTokM (s : Str) : Option Str :=
  (dropLit (str "__DEEPL_VAR") s).bind (gStar wordCls (dropLit (str "__")))

/-- Matcher of the source-key pattern
`/[؀-ۿ]+\.[a-zA-Z0-9.]+\.[a-zA-Z0-9.]+/`. -/
def srcKeyM (s : Str) : Option Str :=
  gPlus arabCls (fun s1 =>
    (dropLit (str ".") s1).bind (gPlus keyCls (fun s2 =>
      (dropLit (str ".") s2).bind (gPlus keyCls some)))) s

/-- Matcher of the interpolation pattern `/\{([^}]+)\}/`, returning the
captured identifier and the remainder. -/
def varCapM : Str → Option (Str × Str)
  | [] => none
  | c :: rest =>
    if c = lbrace then
      let run := rest.takeWhile (fun d => d ≠ rbrace)
      if run.isEmpty then none
      else
        match rest.drop run.length with
        | d :: rest2 => if d = rbrace then some (run, rest2) else none
        | [] => none
    else none

/-- The interpolation matcher without its capture. -/
def varPatM (s : Str) : Option Str := (varCapM s).map (·.2)

/-- First alternative `DEEPL_VAR_[a-z0-9]+_\d+__` of the partial-variable
pattern. -/
def pvAlt1 (s : Str) : Option Str :=
  (dropLit (str "DEEPL_VAR_") s).bind (gPlus alnumLower (fun s1 =>
    (dropLit (str "_") s1).bind (gPlus isDigitC (dropLit (str "__")))))

/-- Second alternative `__DEEPL_VAR_[a-z0-9]+_\d+`. -/
def pvAlt2 (s : Str) : Option Str :=
  (dropLit (str "__DEEPL_VAR_") s).bind (gPlus alnumLower (fun s1 =>
    (dropLit (str "_") s1).bind (gPlus isDigitC some)))

/-- Third alternative `DEEPL_VAR_\d+__`. -/
def pvAlt3 (s : Str) : Option Str :=
  (dropLit (str "DEEPL_VAR_") s).bind (gPlus isDigitC (dropLit (str "__")))

/-- Matcher of the partial-variable pattern, alternatives tried in order. -/
def partialVarM (s : Str) : Option Str := pvAlt1 s <|> pvAlt2 s <|> pvAlt3 s

/-- Matcher of the generic cleanup `/DEEPL_VAR_[a-z0-9_]+/`. -/
def baseVarM (s : Str) : Option Str :=
  (dropLit (str "DEEPL_VAR_") s).bind (gPlus wordCls some)

/-- Matcher of the instance-id cleanup `/_[a-z0-9]+_\d+__?/`. -/
def cleanupIdM (s : Str) : Option Str :=
  (dropLit (str "_") s).bind (gPlus alnumLower (fun s1 =>
    (dropLit (str "_") s1).bind (gPlus isDigitC (fun s2 =>
      (dropLit (str "_") s2).map (fun s3 =>
        match s3 with
        | c :: r => if c = '_' then r else s3
        | [] => [])))))

/-- Matcher of `/_\d+__/` from the Arabic cleanup. -/
def underNumM (s : Str) : Option Str :=
  (dropLit (str "_") s).bind (gPlus isDigitC (dropLit (str "__")))

/-- Matcher of `/\s+/`. -/
def spacesM (s : Str) : Option Str := gPlus jsSpace some s

/-- Matcher of a single given character. -/
def charM (n : Nat) (s : Str) : Option Str :=
  match s with
  | c :: r => if c.toNat = n then some r else none
  | [] => none

/-- Matcher of `(_!|_\s+)` from the final cleanup. -/
def ubsM (s : Str) : Option Str :=
  (dropLit (str "_!") s) <|> ((dropLit (str "_") s).bind (gPlus jsSpace some))

/-- First capture of `m.match(/(\d+)/)`: the leftmost digit run. -/
def firstDigits : Str → Option Str
  | [] => none
  | c :: s => if isDigitC c then some (c :: s.takeWhile isDigitC) else firstDigits s

/-- First capture of `m.match(/_(\d+)_/)`. -/
def underNumUnder : Str → Option Str
  | [] => none
  | _ :: [] => none
  | c :: s@(_ :: _) =>
    if c = '_' then
      let run := s.takeWhile isDigitC
      if !run.isEmpty && (s.drop run.length).head? = some '_' then some run
      else underNumUnder s
    else underNumUnder s

/-- `parseInt` on a digit run. -/
def digitsToNat (l : Str) : Nat := l.foldl (fun a c => a * 10 + (c.toNat - 48)) 0

/-- The per-instance context delimiter `__DEEPL_CTX_<rid>__`. -/
def ctxDelim (rid : Str) : Str := str "__DEEPL_CTX_" ++ rid ++ str "__"

/-- The per-instance variable-token stem `__DEEPL_VAR_<rid>_`. -/
def varPre (rid : Str) : Str := str "__DEEPL_VAR_" ++ rid ++ str "_"

/-- The variable-token tail `__`. -/
def varSuf : Str := str "__"

/-- The token `<prefix><index><suffix>` masking the `index`-th placeholder. -/
def varToken (rid : Str) (i : Nat) : Str := varPre rid ++ (Nat.repr i).data ++ varSuf

/-- A placeholder marker `{name}`. -/
def braceName (n : Str) : Str := lbrace :: (n ++ [rbrace])

/-- Constraint satisfied by the constructor's random instance id
(`Math.random().toString(36).substring(2, 10)`): non-empty, lowercase
alphanumeric. -/
def ridOk (rid : Str) : Bool := !rid.isEmpty && rid.all alnumLower

/-- The translation options record (`TranslationOptions` merged with
`DEFAULT_OPTIONS`); optional fields keep their possibly-undefined nature
because the source distinguishes `undefined` at several use sites. -/
structure TOpts where
  sourceLanguage : Str
  targetLanguage : Str
  autoDetect : Option Bool
  maxLength : Option Nat
  delayBetweenRequests : Option Nat
  maxRetries : Option Nat
  retryDelay : Option Nat
  useContext : Option Bool
  valueOnly : Option Bool
deriving Repr, DecidableEq

/-- `{ ...DEFAULT_OPTIONS, ...options }` of the base constructor: absent
fields take the documented defaults. -/
def mergeOpts (o : TOpts) : TOpts :=
  { o with
    autoDetect := o.autoDetect <|> some true
    maxLength := o.maxLength <|> some 5000
    delayBetweenRequests := o.delayBetweenRequests <|> some 1000
    maxRetries := o.maxRetries <|> some 3
    retryDelay := o.retryDelay <|> some 2000
    useContext := o.useContext <|> some true
    valueOnly := o.valueOnly <|> some false }

/-- The initial `currentDelay` of the DeepL constructor: 1500 for an Arabic
target whose raw options leave `delayBetweenRequests` undefined, otherwise
the merged `delayBetweenRequests || 1000`. -/
def initialDelay (raw : TOpts) : Nat :=
  if raw.targetLanguage = str "ar" ∧ raw.delayBetweenRequests = none then 1500
  else jsOrNat (mergeOpts raw).delayBetweenRequests 1000

/-- One extracted placeholder span: `{ start, end, name }`. -/
structure Span where
  s : Nat
  e : Nat
  name : Str
deriving Repr, DecidableEq

/-- The `VARIABLE_PATTERN.exec` loop of `preprocessText`: scan for matches of
`/\{([^}]+)\}/g`, recording offsets and captured names. -/
def extractAux : Nat → Nat → Str → List Span
  | 0, _, _ => []
  | _, _, [] => []
  | f + 1, pos, c :: s' =>
    match varCapM (c :: s') with
    | some (n, r) =>
      { s := pos, e := pos + n.length + 2, name := n } ::
        extractAux f (pos + n.length + 2) r
    | none => extractAux f (pos + 1) s'

/-- All placeholder spans of a text, in left-to-right order. -/
def extractVars (s : Str) : List Span := extractAux s.length 0 s

/-- The replacement loop of `preprocessText`: splice the token for each
indexed span into the text, from the last span to the first (a `foldr` over
the index-annotated list); `off` is the text position of the spliced string's
first character. -/
def spliceFold (rid : Str) (off : Nat) (svs : List (Nat × Span)) (text : Str) : Str :=
  svs.foldr
    (fun iv acc =>
      acc.take (iv.2.s - off) ++ varToken rid iv.1 ++ acc.drop (iv.2.e - off))
    text

/-- Masking: replace every extracted span by its opaque token. -/
def maskVars (rid : Str) (s : Str) : Str :=
  spliceFold rid 0 (extractVars s).enum s

/-- The variable-restore loop opening `postProcessTranslation`: for each index
in order, replace all occurrences of its token by `{name}`. -/
def restoreVars (rid : Str) (vars : List Span) (t : Str) : Str :=
  vars.enum.foldl
    (fun acc iv => replaceAllLitS (varToken rid iv.1) (braceName iv.2.name) acc) t

/-- Result record of `preprocessText`. -/
structure PreOut where
  processedText : Str
  varList : List Span
  sanitizedContext : Option Str
  useContext : Bool
  valueOnly : Bool
deriving Repr, DecidableEq

/-- `preprocessText`: clean pre-existing internal delimiters, resolve the
context options (with the Arabic explicit-undefined overrides), mask the
placeholders and sanitize the context hint. -/
def preprocess (opts : TOpts) (rid : Str) (text : Str) (context : Option Str) :
    PreOut :=
  let hasOurDelims :=
    containsLit (varPre rid) text || containsLit (ctxDelim rid) text
  let cleaned :=
    if hasOurDelims then
      jsReplaceAll varTokM [] (jsReplaceAll ctxTokM [] text)
    else text
  let useCtx0 := opts.useContext.getD true
  let vOnly0 := opts.valueOnly.getD false
  let isArabic := opts.targetLanguage = str "ar"
  let useCtx := if isArabic ∧ opts.useContext = none then false else useCtx0
  let vOnly := if isArabic ∧ opts.valueOnly = none then true else vOnly0
  let ctx := if vOnly then none else context
  let vars := extractVars cleaned
  let masked := spliceFold rid 0 vars.enum cleaned
  let sanitized :=
    match ctx with
    | some c =>
      if jsTruthy c ∧ useCtx then
        let s1 := if jsTest srcKeyM c then jsReplaceAll srcKeyM [] c else c
        let s2 :=
          if containsLit (str "__DEEPL_CTX") c then jsReplaceAll ctxTokM [] c
          else s1
        some s2
      else if !useCtx then none
      else some c
    | none => if !useCtx then none else none
  { processedText := masked, varList := vars, sanitizedContext := sanitized,
    useContext := useCtx, valueOnly := vOnly }

/-- `postProcessTranslation`: restore tokens, run the Arabic cleanups, strip
context/partial-variable debris, repair missing placeholders and clean
leftover instance-id patterns.  The instance-id guard of the source computes
`VARIABLE_PREFIX.split("_")[0]`, which is the empty string, so
`includes(...)` holds for every text and that block always runs. -/
def postProcess (opts : TOpts) (rid : Str) (translated original : Str)
    (vars : List Span) : Str :=
  let t1 := restoreVars rid vars translated
  let t2 :=
    if opts.targetLanguage = str "ar" then
      let a := jsReplaceAll (charM 8207) [] t1
      let b := jsTrim (jsReplaceAll spacesM [' '] a)
      let c := jsReplaceAll underNumM [] b
      jsReplaceAll (dropLit (str "_개")) [] c
    else t1
  let t3 := if jsTest ctxTokM t2 then jsReplaceAll ctxTokM [] t2 else t2
  let t4 :=
    if containsLit (str "DEEPL_VAR_") t3 || containsLit (str "__DEEPL_VAR") t3 then
      let ms := jsMatchAll partialVarM t3
      let t3a :=
        ms.foldl
          (fun acc m =>
            match firstDigits m with
            | some ds =>
              match vars[digitsToNat ds]? with
              | some v => replaceFirstLit m (braceName v.name) acc
              | none => replaceFirstLit m [] acc
            | none => replaceFirstLit m [] acc)
          t3
      jsReplaceAll baseVarM [] t3a
    else t3
  let origN := jsCount varPatM original
  let transN := jsCount varPatM t4
  let t5 :=
    if origN ≠ transN then
      if transN < origN then
        let origVs := jsMatchAll varPatM original
        let transVs := jsMatchAll varPatM t4
        let missing := origVs.filter (fun v => !transVs.contains v)
        if !missing.isEmpty then t4 ++ ' ' :: List.intercalate [' '] missing
        else t4
      else t4
    else t4
  let t6 :=
    if containsLit (varPre rid) t5 || containsLit varSuf t5 ||
        containsLit (ctxDelim rid) t5 then
      replaceAllLit (ctxDelim rid) [] (restoreVars rid vars t5)
    else t5
  let ms7 := jsMatchAll cleanupIdM t6
  if !ms7.isEmpty then
    ms7.foldl
      (fun acc m =>
        match underNumUnder m with
        | some ds =>
          match vars[digitsToNat ds]? with
          | some v => replaceFirstLit m (braceName v.name) acc
          | none => replaceFirstLit m [] acc
        | none => replaceFirstLit m [] acc)
      t6
  else t6

/-- `shouldRetranslate`: retry when residual context/variable patterns or a
leaked source-key pattern remain. -/
def shouldRetranslate (t : Str) : Bool :=
  let ctxN := jsCount ctxTokM t
  let varN := jsCount varTokM t
  let keyN := jsCount srcKeyM t
  decide (0 < ctxN + varN + keyN) || decide (0 < keyN)

/-- `finalCleanup`: one defensive pass stripping surviving markers. -/
def finalCleanup (t : Str) : Str :=
  if jsTest ctxTokM t || jsTest varTokM t || jsTest srcKeyM t then
    jsReplaceAll ubsM []
      (jsReplaceAll srcKeyM [] (jsReplaceAll varTokM [] (jsReplaceAll ctxTokM [] t)))
  else t

/-- Behaviour of the upstream service for one HTTP request. -/
inductive ApiOutcome
  | success (text : Str)
  | httpErr (status : Nat)
  | netErr
deriving Repr, DecidableEq

/-- A dispatch failure propagated to the caller. -/
inductive ApiFail
  | http (status : Nat)
  | net
deriving Repr, DecidableEq

/-- State and result of `makeApiRequest`: the outcome, the number of issued
requests so far, the mutable `currentDelay`, and the backoff waits performed. -/
structure ApiRes where
  result : Except ApiFail Str
  reqIdx : Nat
  curDelay : Nat
  waits : List Nat
deriving Repr

/-- `makeApiRequest`: issue the request numbered `reqIdx`; on success reset
`currentDelay` to the configured base; on 429 double `currentDelay`, wait and
retry; on 5xx wait the fixed `retryDelay` and retry; otherwise, or once
`maxRetries` retries were used, propagate the failure. -/
def makeApiReq (opts : TOpts) (oracle : Nat → ApiOutcome) :
    Nat → Nat → Nat → Nat → ApiRes
  | 0, idx, d, _ => ⟨Except.error ApiFail.net, idx, d, []⟩
  | f + 1, idx, d, rc =>
    match oracle idx with
    | ApiOutcome.success s =>
      ⟨Except.ok s, idx + 1, jsOrNat opts.delayBetweenRequests 1000, []⟩
    | ApiOutcome.httpErr code =>
      if rc < jsOrNat opts.maxRetries 3 then
        if code = 429 then
          let sub := makeApiReq opts oracle f (idx + 1) (d * 2) (rc + 1)
          { sub with waits := d * 2 :: sub.waits }
        else if 500 ≤ code then
          let sub := makeApiReq opts oracle f (idx + 1) d (rc + 1)
          { sub with waits := jsOrNat opts.retryDelay 2000 :: sub.waits }
        else ⟨Except.error (ApiFail.http code), idx + 1, d, []⟩
      else ⟨Except.error (ApiFail.http code), idx + 1, d, []⟩
    | ApiOutcome.netErr => ⟨Except.error ApiFail.net, idx + 1, d, []⟩

/-- Context truncation to the first three space-separated words, used by the
(unreachable) simplified-context branch. -/
def shortCtx (c : Str) : Str := List.intercalate [' '] ((c.splitOn ' ').take 3)

/-- Context embedding: `"<context> <DELIM> <maskedText>"`. -/
def wrapCtx (rid : Str) (ctx masked : Str) : Str :=
  ctx ++ ' ' :: (ctxDelim rid ++ ' ' :: masked)

/-- Context stripping: everything after the delimiter, trimmed; if the
delimiter is absent, drop `min(2·|context|, ⌊|result|/2⌋)` leading characters
and trim. -/
def unwrapCtx (rid : Str) (sanCtx result : Str) : Str :=
  match indexOfLit (ctxDelim rid) result with
  | some i => jsTrim (result.drop (i + (ctxDelim rid).length))
  | none => jsTrim (result.drop (min (2 * sanCtx.length) (result.length / 2)))

/-- Result of one `attemptTranslation` cascade: outcome, request counter,
`currentDelay`, and the wire texts dispatched, in order. -/
structure AttRes where
  result : Except ApiFail Str
  reqIdx : Nat
  curDelay : Nat
  wires : List Str
deriving Repr

/-- `attemptTranslation`: build the wire text (full context on the first
attempt, value-only from the first retry on), dispatch, short-circuit empty
results into forced value-only mode, unwrap the context, post-process, and
retranslate while `shouldRetranslate` holds and attempts remain. -/
def attemptTr (opts : TOpts) (rid : Str) (oracle : Nat → ApiOutcome) :
    Nat → Str → List Span → Str → Option Str → Bool → Nat → Bool → Nat → Nat →
    AttRes
  | 0, _, _, _, _, _, _, _, idx, d => ⟨Except.error ApiFail.net, idx, d, []⟩
  | f + 1, pt, vars, orig, sanCtx, useCtx, rc, force, idx, d =>
    let maxR := min (jsOrNat opts.maxRetries 3) 3
    if rc > maxR then ⟨Except.ok pt, idx, d, []⟩
    else
      let uvm := force || decide (1 ≤ rc)
      let ctxLive :=
        match sanCtx with
        | some c => jsTruthy c && useCtx && !uvm
        | none => false
      let wire :=
        match sanCtx with
        | some c =>
          if jsTruthy c && useCtx && !uvm then
            if 0 < rc then wrapCtx rid (shortCtx c) pt else wrapCtx rid c pt
          else pt
        | none => pt
      let api := makeApiReq opts oracle (jsOrNat opts.maxRetries 3 + 1) idx d 0
      match api.result with
      | Except.error e => ⟨Except.error e, api.reqIdx, api.curDelay, [wire]⟩
      | Except.ok r0 =>
        if (jsTrim r0).isEmpty && !uvm then
          let sub := attemptTr opts rid oracle f pt vars orig none useCtx rc true
            api.reqIdx api.curDelay
          ⟨sub.result, sub.reqIdx, sub.curDelay, wire :: sub.wires⟩
        else
          let r1 := if ctxLive then unwrapCtx rid (sanCtx.getD []) r0 else r0
          let r2 := postProcess opts rid r1 orig vars
          if (jsTrim r2).isEmpty && !uvm then
            let sub := attemptTr opts rid oracle f pt vars orig none useCtx rc true
              api.reqIdx api.curDelay
            ⟨sub.result, sub.reqIdx, sub.curDelay, wire :: sub.wires⟩
          else if shouldRetranslate r2 && decide (rc < maxR) then
            let sub := attemptTr opts rid oracle f pt vars orig sanCtx useCtx
              (rc + 1) uvm api.reqIdx api.curDelay
            ⟨sub.result, sub.reqIdx, sub.curDelay, wire :: sub.wires⟩
          else ⟨Except.ok r2, api.reqIdx, api.curDelay, [wire]⟩

/-- The record returned by a successful translation. -/
structure TransResult where
  originalText : Str
  translatedText : Str
  sourceLanguage : Str
  targetLanguage : Str
deriving Repr, DecidableEq

/-- Result of `translateText`. -/
structure TtRes where
  result : Except ApiFail TransResult
  reqIdx : Nat
  curDelay : Nat
  wires : List Str
deriving Repr

/-- `translateText` of the DeepL translator: preprocess, run the attempt
cascade, final-cleanup, and retry without context if the final text is
blank; on success assemble the result record from the caller's input and the
configured languages.  The attempt cascade's recursion depth is bounded by 9
because the retry cap is at most 3, so the constant fuel 16 is sufficient. -/
def translateTextM (opts : TOpts) (rid : Str) (oracle : Nat → ApiOutcome) :
    Nat → Str → Option Str → Nat → Nat → TtRes
  | 0, _, _, idx, d => ⟨Except.error ApiFail.net, idx, d, []⟩
  | f + 1, text, context, idx, d =>
    let pre := preprocess opts rid text context
    let att := attemptTr opts rid oracle 16 pre.processedText pre.varList text
      (if pre.useContext then pre.sanitizedContext else none) pre.useContext 0
      pre.valueOnly idx d
    match att.result with
    | Except.error e => ⟨Except.error e, att.reqIdx, att.curDelay, att.wires⟩
    | Except.ok t0 =>
      let t1 := finalCleanup t0
      if (jsTrim t1).isEmpty then
        let sub := translateTextM opts rid oracle f text none att.reqIdx att.curDelay
        ⟨sub.result, sub.reqIdx, sub.curDelay, att.wires ++ sub.wires⟩
      else
        ⟨Except.ok
            { originalText := text, translatedText := t1,
              sourceLanguage := opts.sourceLanguage,
              targetLanguage := opts.targetLanguage },
          att.reqIdx, att.curDelay, att.wires⟩

/-- A failure of the public `translate`. -/
inductive TransFail
  | emptyText
  | tooLong
  | api (e : ApiFail)
deriving Repr, DecidableEq

/-- Result of the public `translate`. -/
structure TrRes where
  result : Except TransFail TransResult
  reqIdx : Nat
  curDelay : Nat
  wires : List Str
deriving Repr

/-- The public `translate`: reject empty or over-long input before any
request, then delegate to `translateText`. -/
def translateM (opts : TOpts) (rid : Str) (oracle : Nat → ApiOutcome)
    (fuel : Nat) (text : Str) (context : Option Str) (idx d : Nat) : TrRes :=
  if text.isEmpty || (jsTrim text).isEmpty then
    ⟨Except.error TransFail.emptyText, idx, d, []⟩
  else if jsOrNat opts.maxLength 5000 < text.length then
    ⟨Except.error TransFail.tooLong, idx, d, []⟩
  else
    let r := translateTextM opts rid oracle fuel text context idx d
    match r.result with
    | Except.ok v => ⟨Except.ok v, r.reqIdx, r.curDelay, r.wires⟩
    | Except.error e => ⟨Except.error (TransFail.api e), r.reqIdx, r.curDelay, r.wires⟩

/-- `t` occurs as a prefix of `s`. -/
def pfxP (t s : Str) : Prop := ∃ b, s = t ++ b

/-- `t` occurs as a suffix of `s`. -/
def sfxP (t s : Str) : Prop := ∃ a, s = a ++ t

/-- `t` occurs as a substring of `s`. -/
def ifxP (t s : Str) : Prop := ∃ a b, s = a ++ t ++ b

/-- Derivation mirroring the extraction scan of `preprocessText`: from text
position `pos` with remaining input `s`, the scan produces the span list. -/
inductive ExtractsFrom : Nat → Str → List Span → Prop
  | done (pos : Nat) : ExtractsFrom pos [] []
  | skip (pos : Nat) (c : Char) (s' : Str) (sp : List Span) :
      varCapM (c :: s') = none → ExtractsFrom (pos + 1) s' sp →
      ExtractsFrom pos (c :: s') sp
  | found (pos : Nat) (s n r : Str) (sp : List Span) :
      varCapM s = some (n, r) → ExtractsFrom (pos + n.length + 2) r sp →
      ExtractsFrom pos s ({ s := pos, e := pos + n.length + 2, name := n } :: sp)

/-- A text decomposed into literal segments separated by placeholder slots. -/
inductive Chunks
  | last (t : Str)
  | cons (t : Str) (n : Str) (rest : Chunks)

/-- The original text of a decomposition: slots hold `{name}` markers. -/
def origOf : Chunks → Str
  | Chunks.last t => t
  | Chunks.cons t n r => t ++ braceName n ++ origOf r

/-- The half-restored text whose slots numbered below `i` hold `{name}`
markers and whose later slots still hold masking tokens; slot numbering
starts at `j`. -/
def mixOf (rid : Str) (i : Nat) : Chunks → Nat → Str
  | Chunks.last t, _ => t
  | Chunks.cons t n r, j =>
    t ++ (if j < i then braceName n else varToken rid j) ++ mixOf rid i r (j + 1)

/-- Number of placeholder slots of a decomposition. -/
def slotsOf : Chunks → Nat
  | Chunks.last _ => 0
  | Chunks.cons _ _ r => slotsOf r + 1

/-- The slot names of a decomposition, in order. -/
def namesOf : Chunks → List Str
  | Chunks.last _ => []
  | Chunks.cons _ n r => n :: namesOf r

/-- All literal segments and names of the decomposition avoid the internal
marker `DEEPL_VAR`. -/
def goodCh : Chunks → Prop
  | Chunks.last t => ¬ ifxP marker9 t
  | Chunks.cons t n r => ¬ ifxP marker9 t ∧ ¬ ifxP marker9 n ∧ goodCh r

/-- An item interleaved between literal segments: a `{name}` marker, a
variable token, or a variable token with its final character cut off. -/
inductive MItem
  | ibr (n : Str)
  | itok (j : Nat)
  | itrunc (j : Nat)

/-- Alternation of literal segments and items. -/
inductive MPieces
  | mlast (t : Str)
  | mseg (t : Str) (it : MItem) (rest : MPieces)

/-- The string of one item. -/
def itemStr (rid : Str) : MItem → Str
  | MItem.ibr n => braceName n
  | MItem.itok j => varToken rid j
  | MItem.itrunc j => (varToken rid j).dropLast

/-- Flattening of an alternation. -/
def flatM (rid : Str) : MPieces → Str
  | MPieces.mlast t => t
  | MPieces.mseg t it r => t ++ itemStr rid it ++ flatM rid r

/-- Items that cannot harbour an occurrence of the token numbered `i`:
marker-free names, single-digit tokens of other indices, and truncated
tokens. -/
def goodIt (i : Nat) : MItem → Prop
  | MItem.ibr n => ¬ ifxP marker9 n
  | MItem.itok j => j ≤ 9 ∧ j ≠ i
  | MItem.itrunc j => j ≤ 9

/-- Well-formedness of an alternation for the no-occurrence lemma: segments
are marker-free, items are good, and a truncated token ends the string. -/
def goodM (rid : Str) (i : Nat) : MPieces → Prop
  | MPieces.mlast t => ¬ ifxP marker9 t
  | MPieces.mseg t it r =>
    ¬ ifxP marker9 t ∧ goodIt i it ∧
      (match it with
       | MItem.itrunc _ => flatM rid r = []
       | _ => True) ∧
      goodM rid i r

/-- Append one item (followed by nothing) at the end of an alternation. -/
def msnoc : MPieces → MItem → MPieces
  | MPieces.mlast t, it => MPieces.mseg t it (MPieces.mlast [])
  | MPieces.mseg t i r, it => MPieces.mseg t i (msnoc r it)

/-- Prepend one character to the first literal segment of a decomposition. -/
def consChar (c : Char) : Chunks → Chunks
  | Chunks.last t => Chunks.last (c :: t)
  | Chunks.cons t n r => Chunks.cons (c :: t) n r

/-- Render a decomposition's slots, numbered from `k` on, as token items. -/
def toksPieces : Chunks → Nat → MPieces
  | Chunks.last t, _ => MPieces.mlast t
  | Chunks.cons t n r, k => MPieces.mseg t (MItem.itok k) (toksPieces r (k + 1))

/-- Raw constructor options of the examples: Korean to English, everything
else left undefined. -/
def rawKoEn : TOpts :=
  { sourceLanguage := str "ko", targetLanguage := str "en", autoDetect := none,
    maxLength := none, delayBetweenRequests := none, maxRetries := none,
    retryDelay := none, useContext := none, valueOnly := none }

/-- The merged options of the examples. -/
def optsKoEn : TOpts := mergeOpts rawKoEn

/-- A concrete instance id of the shape the constructor generates. -/
def rid0 : Str := str "ab12cd34"

/-- Raw constructor options targeting Arabic with `delayBetweenRequests`
left undefined. -/
def rawAr : TOpts := { rawKoEn with targetLanguage := str "ar" }

/-- A provider response whose cleanup-surviving fragments splice into a fresh
`__DEEPL_CTX…__` pattern. -/
def respC2 : Str := str "__DEEPL_CTX_ _abc____DEEPL_CTXDEEPL_VAR_99___x__"

/-- A provider response carrying a leaked source-key pattern, which fails
validation on every attempt. -/
def respBadKey : Str := List.replicate 20 (Char.ofNat 1575) ++ str ".ab.cd"

/-! Infrastructure lemmas about the string scanners. -/

theorem isPrefixOf_iff (t s : Str) : t.isPrefixOf s = true ↔ pfxP t s := by
  induction t generalizing s with
  | nil => simp [List.isPrefixOf, pfxP]
  | cons a as ih =>
    cases s with
    | nil =>
      simp only [List.isPrefixOf, pfxP]
      constructor
      · intro h; cases h
      · rintro ⟨b, h⟩; cases h
    | cons b bs =>
      simp only [List.isPrefixOf, Bool.and_eq_true, beq_iff_eq, ih, pfxP]
      constructor
      · rintro ⟨rfl, c, rfl⟩; exact ⟨c, rfl⟩
      · rintro ⟨c, h⟩
        injection h with h1 h2
        exact ⟨h1.symm, c, h2⟩

theorem pfx_self_app (t b : Str) : t.isPrefixOf (t ++ b) = true :=
  (isPrefixOf_iff t (t ++ b)).mpr ⟨b, rfl⟩

theorem containsLit_iff (t s : Str) : containsLit t s = true ↔ ifxP t s := by
  induction s with
  | nil =>
    simp only [containsLit, List.isEmpty_iff, ifxP]
    constructor
    · rintro rfl; exact ⟨[], [], rfl⟩
    · rintro ⟨a, b, h⟩
      have hl := congrArg List.length h
      simp at hl
      exact List.eq_nil_of_length_eq_zero (by omega)
  | cons c s' ih =>
    simp only [containsLit, Bool.or_eq_true, isPrefixOf_iff, ih]
    constructor
    · rintro (⟨b, h⟩ | ⟨a, b, h⟩)
      · exact ⟨[], b, by simp [h]⟩
      · exact ⟨c :: a, b, by simp [h]⟩
    · rintro ⟨a, b, h⟩
      cases a with
      | nil => exact Or.inl ⟨b, by simpa using h⟩
      | cons a0 a' =>
        injection h with h1 h2
        exact Or.inr ⟨a', b, h2⟩

theorem pfx_ifx {t s : Str} (h : pfxP t s) : ifxP t s := by
  rcases h with ⟨b, rfl⟩; exact ⟨[], b, rfl⟩

theorem sfx_ifx {t s : Str} (h : sfxP t s) : ifxP t s := by
  rcases h with ⟨a, rfl⟩; exact ⟨a, [], by simp⟩

theorem ifx_trans {t u s : Str} (h1 : ifxP t u) (h2 : ifxP u s) : ifxP t s := by
  rcases h1 with ⟨a1, b1, rfl⟩
  rcases h2 with ⟨a2, b2, rfl⟩
  exact ⟨a2 ++ a1, b1 ++ b2, by simp⟩

theorem ifx_appL {t x : Str} (y : Str) (h : ifxP t x) : ifxP t (x ++ y) := by
  rcases h with ⟨a, b, rfl⟩; exact ⟨a, b ++ y, by simp⟩

theorem ifx_appR {t y : Str} (x : Str) (h : ifxP t y) : ifxP t (x ++ y) := by
  rcases h with ⟨a, b, rfl⟩; exact ⟨x ++ a, b, by simp⟩

theorem pfx_of_pfx_app {t x b : Str} (h : pfxP t (x ++ b)) (hl : t.length ≤ x.length) :
    pfxP t x := by
  induction t generalizing x with
  | nil => exact ⟨x, rfl⟩
  | cons a t' ih =>
    cases x with
    | nil => simp at hl
    | cons c x' =>
      rcases h with ⟨d, hd⟩
      injection hd with h1 h2
      rcases ih ⟨d, h2⟩ (by simpa using hl) with ⟨e, he⟩
      exact ⟨e, by simp [h1, he]⟩

theorem pfx_app_cases {t x y : Str} (h : pfxP t (x ++ y)) :
    pfxP t x ∨ ∃ t2, t = x ++ t2 ∧ pfxP t2 y := by
  induction x generalizing t with
  | nil => exact Or.inr ⟨t, rfl, h⟩
  | cons c x' ih =>
    cases t with
    | nil => exact Or.inl ⟨c :: x', rfl⟩
    | cons t0 t' =>
      rcases h with ⟨d, hd⟩
      injection hd with h1 h2
      rcases ih ⟨d, h2⟩ with hp | ⟨t2, ht2, hp⟩
      · rcases hp with ⟨e, he⟩
        exact Or.inl ⟨e, by simp [h1.symm, he]⟩
      · exact Or.inr ⟨t2, by simp [h1.symm, ht2], hp⟩

theorem take_len_app (x y : Str) (k : Nat) :
    (x ++ y).take (x.length + k) = x ++ y.take k := by
  induction x with
  | nil => simp
  | cons c x' ih => simp [List.take, Nat.succ_add, ih]

theorem drop_len_app (x y : Str) (k : Nat) :
    (x ++ y).drop (x.length + k) = y.drop k := by
  induction x with
  | nil => simp
  | cons c x' ih => simp [List.drop, Nat.succ_add, ih]

theorem ifx_split {t x y : Str} (h : ifxP t (x ++ y)) (ht : t ≠ []) :
    ifxP t x ∨ ifxP t y ∨
      ∃ t1 t2, t = t1 ++ t2 ∧ t1 ≠ [] ∧ t2 ≠ [] ∧ sfxP t1 x ∧ pfxP t2 y := by
  induction x with
  | nil => exact Or.inr (Or.inl (by simpa using h))
  | cons c x' ih =>
    rcases h with ⟨a, b, hab⟩
    cases a with
    | nil =>
      have hp : pfxP t (c :: x' ++ y) := ⟨b, by simpa using hab⟩
      rcases pfx_app_cases (x := c :: x') hp with hp1 | ⟨t2, ht2, hp2⟩
      · rcases hp1 with ⟨e, he⟩
        exact Or.inl ⟨[], e, by simpa using he⟩
      · cases t2 with
        | nil => exact Or.inl ⟨[], [], by simp [ht2]⟩
        | cons u0 u' =>
          exact Or.inr (Or.inr ⟨c :: x', u0 :: u', by simpa using ht2, by simp,
            by simp, ⟨[], rfl⟩, hp2⟩)
    | cons a0 a' =>
      injection hab with h1 h2
      rcases ih ⟨a', b, h2⟩ with hin | hin | ⟨t1, t2, ht12, hn1, hn2, ⟨u, hu⟩, hp⟩
      · rcases hin with ⟨p, q, hpq⟩
        exact Or.inl ⟨c :: p, q, by simp [hpq]⟩
      · exact Or.inr (Or.inl hin)
      · exact Or.inr (Or.inr ⟨t1, t2, ht12, hn1, hn2, ⟨c :: u, by simp [hu]⟩, hp⟩)

theorem scanRepl_fuel (m : Str → Option Str) (repl : Str) :
    ∀ f g s, s.length ≤ f → s.length ≤ g → scanRepl m repl f s = scanRepl m repl g s := by
  intro f
  induction f with
  | zero =>
    intro g s hf _
    have : s = [] := List.eq_nil_of_length_eq_zero (Nat.le_zero.mp hf)
    subst this
    cases g <;> rfl
  | succ f ih =>
    intro g s hf hg
    cases s with
    | nil => cases g <;> rfl
    | cons c s' =>
      cases g with
      | zero => simp at hg
      | succ g' =>
        simp only [scanRepl]
        cases hm : m (c :: s') with
        | none =>
          have h1 : s'.length ≤ f := by simpa using hf
          have h2 : s'.length ≤ g' := by simpa using hg
          rw [ih g' s' h1 h2]
        | some rem =>
          by_cases hl : rem.length < s'.length + 1
          · simp only [if_pos hl]
            have hf' : s'.length + 1 ≤ f + 1 := by simpa using hf
            have hg' : s'.length + 1 ≤ g' + 1 := by simpa using hg
            have h1 : rem.length ≤ f := by omega
            have h2 : rem.length ≤ g' := by omega
            rw [ih g' rem h1 h2]
          · simp only [if_neg hl]
            have h1 : s'.length ≤ f := by simpa using hf
            have h2 : s'.length ≤ g' := by simpa using hg
            rw [ih g' s' h1 h2]

theorem jra_cons_none {m : Str → Option Str} (repl : Str) {c : Char} {s : Str}
    (h : m (c :: s) = none) :
    jsReplaceAll m repl (c :: s) = c :: jsReplaceAll m repl s := by
  simp only [jsReplaceAll, List.length_cons, scanRepl, h]

theorem jra_cons_some {m : Str → Option Str} (repl : Str) {c : Char} {s rem : Str}
    (h : m (c :: s) = some rem) (hl : rem.length < s.length + 1) :
    jsReplaceAll m repl (c :: s) = repl ++ jsReplaceAll m repl rem := by
  simp only [jsReplaceAll, List.length_cons, scanRepl, h, if_pos hl]
  congr 1
  exact scanRepl_fuel m repl s.length rem.length rem (by omega) (Nat.le_refl _)

theorem ral_cons_nomatch {t r : Str} {c : Char} {s : Str}
    (h : t.isPrefixOf (c :: s) = false) :
    replaceAllLit t r (c :: s) = c :: replaceAllLit t r s :=
  jra_cons_none r (by simp [dropLit, h])

theorem ral_head {t r b : Str} (ht : t ≠ []) :
    replaceAllLit t r (t ++ b) = r ++ replaceAllLit t r b := by
  cases t with
  | nil => exact absurd rfl ht
  | cons t0 t' =>
    have hm : dropLit (t0 :: t') ((t0 :: t') ++ b) = some b := by
      simp only [dropLit, pfx_self_app, if_pos]
      congr 1
      have := drop_len_app (t0 :: t') b 0
      simpa using this
    have hcons : (t0 :: t') ++ b = t0 :: (t' ++ b) := rfl
    rw [replaceAllLit, hcons]
    rw [jra_cons_some r (by rw [← hcons, hm]) (by simp; omega)]
    rfl

theorem ral_nocc {t r : Str} : ∀ {s : Str}, ¬ ifxP t s → replaceAllLit t r s = s := by
  intro s
  induction s with
  | nil => intro _; rfl
  | cons c s' ih =>
    intro h
    have hpf : t.isPrefixOf (c :: s') = false := by
      cases hb : t.isPrefixOf (c :: s') with
      | false => rfl
      | true => exact absurd (pfx_ifx ((isPrefixOf_iff _ _).mp hb)) h
    rw [ral_cons_nomatch hpf, ih (fun hi => h (by
      rcases hi with ⟨a, b, hab⟩
      exact ⟨c :: a, b, by simp [hab]⟩))]

theorem ral_walk {t r : Str} : ∀ {a rest : Str},
    (∀ i, i < a.length → t.isPrefixOf ((a ++ rest).drop i) = false) →
    replaceAllLit t r (a ++ rest) = a ++ replaceAllLit t r rest := by
  intro a
  induction a with
  | nil => intro rest _; simp
  | cons c a' ih =>
    intro rest h
    have h0 : t.isPrefixOf (c :: (a' ++ rest)) = false := by simpa using h 0 (by simp)
    have : (c :: a') ++ rest = c :: (a' ++ rest) := rfl
    rw [this, ral_cons_nomatch h0, ih (fun i hi => by
      have := h (i + 1) (by simpa using Nat.succ_lt_succ hi)
      simpa using this)]
    rfl

theorem dropLast_take (t : Str) : t.dropLast = t.take (t.length - 1) := by
  induction t with
  | nil => rfl
  | cons a t ih =>
    cases t with
    | nil => rfl
    | cons b t' =>
      have h1 : (a :: b :: t').dropLast = a :: (b :: t').dropLast := rfl
      have h2 : (a :: b :: t').length - 1 = t'.length + 1 := by simp
      rw [h1, h2, List.take_succ_cons, ih]
      have h3 : (b :: t').length - 1 = t'.length := by simp
      rw [h3]

theorem no_match_in_pre {t a b : Str} (ht : t ≠ [])
    (hpre : ¬ ifxP t (a ++ t.dropLast)) :
    ∀ i, i < a.length → t.isPrefixOf ((a ++ t ++ b).drop i) = false := by
  intro i hi
  cases hb : t.isPrefixOf ((a ++ t ++ b).drop i) with
  | false => rfl
  | true =>
    exfalso
    apply hpre
    rcases (isPrefixOf_iff _ _).mp hb with ⟨d, hd⟩
    set S := a ++ t ++ b with hS
    have hsplit : S = S.take i ++ (t ++ d) := by
      rw [← hd]; simp
    have htlen : 1 ≤ t.length := by
      cases t with
      | nil => exact absurd rfl ht
      | cons _ _ => simp
    have hilen : i ≤ S.length := by
      have : a.length ≤ S.length := by simp [hS]
      omega
    have hleni : (S.take i).length = i := by
      rw [List.length_take]
      omega
    have e1 : S.take (a.length + (t.length - 1)) = a ++ t.dropLast := by
      rw [hS]
      have : a ++ t ++ b = a ++ (t ++ b) := by simp
      rw [this, take_len_app]
      congr 1
      rw [List.take_append_eq_append_take]
      have h0 : t.length - 1 - t.length = 0 := by omega
      rw [h0, List.take_zero, List.append_nil, ← dropLast_take]
    have e2 : S.take (a.length + (t.length - 1)) =
        S.take i ++ (t ++ d.take (a.length + (t.length - 1) - i - t.length)) := by
      conv_lhs => rw [hsplit]
      have hK1 : a.length + (t.length - 1) =
          (S.take i).length + (a.length + (t.length - 1) - i) := by
        rw [hleni]; omega
      rw [hK1, take_len_app]
      congr 1
      have hK2 : a.length + (t.length - 1) - i =
          t.length + (a.length + (t.length - 1) - i - t.length) := by omega
      rw [hK2, take_len_app]
      have h4 : (List.take i S).length +
          (t.length + (a.length + (t.length - 1) - i - t.length)) - i - t.length =
          a.length + (t.length - 1) - i - t.length := by
        rw [hleni]; omega
      rw [h4]
    exact ⟨S.take i, d.take (a.length + (t.length - 1) - i - t.length), by
      rw [← e1, e2]; simp⟩

theorem ral_at {t r a b : Str} (ht : t ≠ [])
    (hpre : ¬ ifxP t (a ++ t.dropLast)) (hb : ¬ ifxP t b) :
    replaceAllLit t r (a ++ t ++ b) = a ++ r ++ b := by
  have hassoc : a ++ t ++ b = a ++ (t ++ b) := by simp
  rw [hassoc, ral_walk (fun i hi => by
    have := no_match_in_pre (b := b) ht hpre i hi
    rwa [hassoc] at this)]
  rw [ral_head ht, ral_nocc hb]
  simp

theorem idxOf_through (t : Str) : ∀ (a s : Str),
    (∀ i, i < a.length → t.isPrefixOf ((a ++ s).drop i) = false) →
    t.isPrefixOf s = true → indexOfLit t (a ++ s) = some a.length := by
  intro a
  induction a with
  | nil =>
    intro s _ hp
    cases s with
    | nil =>
      have : t = [] := by
        cases t with
        | nil => rfl
        | cons x xs => simp [List.isPrefixOf] at hp
      simp [indexOfLit, this]
    | cons c s' => simp [indexOfLit, hp]
  | cons c a' ih =>
    intro s h0 hp
    have hpf : t.isPrefixOf (c :: (a' ++ s)) = false := by
      simpa using h0 0 (by simp)
    have : (c :: a') ++ s = c :: (a' ++ s) := rfl
    rw [this]
    simp only [indexOfLit, hpf]
    rw [ih s (fun i hi => by
      have := h0 (i + 1) (by simpa using Nat.succ_lt_succ hi)
      simpa using this) hp]
    simp

theorem jsTrim_space_cons (M : Str) : jsTrim (' ' :: M) = jsTrim M := by
  simp [jsTrim, List.dropWhile_cons, show jsSpace ' ' = true from rfl]

/-! Claim theorems. -/

/-- C4, counterexample: for an Arabic target with `delayBetweenRequests`
unset the constructor establishes the base delay 1500, but one successful
dispatch resets `currentDelay` to 1000, not to that base. -/
theorem c4_counterexample :
    initialDelay rawAr = 1500 ∧
    (makeApiReq (mergeOpts rawAr) (fun _ => ApiOutcome.success (str "ok"))
        4 0 1500 0).curDelay = 1000 ∧
    (1000 : Nat) ≠ 1500 := by
  refine ⟨rfl, rfl, by decide⟩

/-- C4, amended: after each 429 received while retries remain `currentDelay`
doubles and the dispatch retries with the doubled delay; after every
successful dispatch `currentDelay` becomes `delayBetweenRequests || 1000`,
which for the Arabic-default configuration is 1000, strictly below the
construction-time base 1500. -/
theorem c4_amended (opts : TOpts) (oracle : Nat → ApiOutcome)
    (f idx d rc : Nat) (s : Str) :
    (oracle idx = ApiOutcome.httpErr 429 → rc < jsOrNat opts.maxRetries 3 →
      makeApiReq opts oracle (f + 1) idx d rc =
        { makeApiReq opts oracle f (idx + 1) (d * 2) (rc + 1) with
            waits := d * 2 ::
              (makeApiReq opts oracle f (idx + 1) (d * 2) (rc + 1)).waits }) ∧
    (oracle idx = ApiOutcome.success s →
      makeApiReq opts oracle (f + 1) idx d rc =
        ⟨Except.ok s, idx + 1, jsOrNat opts.delayBetweenRequests 1000, []⟩) ∧
    (initialDelay rawAr = 1500 ∧
      jsOrNat (mergeOpts rawAr).delayBetweenRequests 1000 = 1000) := by
  refine ⟨fun h1 h2 => ?_, fun hs => ?_, rfl, rfl⟩
  · simp only [makeApiReq, h1, if_pos h2]
    simp
  · simp only [makeApiReq, hs]

/-- C4, witness for the amended theorem: three consecutive 429 responses
double the delay 1000 → 2000 → 4000 → 8000. -/
theorem c4_amended_witness :
    makeApiReq optsKoEn (fun _ => ApiOutcome.httpErr 429) 4 0 1000 0 =
      { makeApiReq optsKoEn (fun _ => ApiOutcome.httpErr 429) 3 1 2000 1 with
          waits := 2000 ::
            (makeApiReq optsKoEn (fun _ => ApiOutcome.httpErr 429) 3 1 2000 1).waits } :=
  (c4_amended optsKoEn (fun _ => ApiOutcome.httpErr 429) 3 0 1000 0 []).1 rfl
    (by decide)

/-- C9: a 429 while retries remain is retried after the doubled
`currentDelay`; a 5xx while retries remain is retried after the fixed
`retryDelay` (default 2000); any other 4xx propagates immediately with no
further dispatcher retry; once `maxRetries` retries are used any HTTP error
propagates immediately. -/
theorem c9_retry_policy (opts : TOpts) (oracle : Nat → ApiOutcome)
    (f idx d rc code : Nat) :
    (oracle idx = ApiOutcome.httpErr 429 → rc < jsOrNat opts.maxRetries 3 →
      makeApiReq opts oracle (f + 1) idx d rc =
        { makeApiReq opts oracle f (idx + 1) (d * 2) (rc + 1) with
            waits := d * 2 ::
              (makeApiReq opts oracle f (idx + 1) (d * 2) (rc + 1)).waits }) ∧
    (oracle idx = ApiOutcome.httpErr code → 500 ≤ code →
      rc < jsOrNat opts.maxRetries 3 →
      makeApiReq opts oracle (f + 1) idx d rc =
        { makeApiReq opts oracle f (idx + 1) d (rc + 1) with
            waits := jsOrNat opts.retryDelay 2000 ::
              (makeApiReq opts oracle f (idx + 1) d (rc + 1)).waits }) ∧
    (oracle idx = ApiOutcome.httpErr code → code ≠ 429 → code < 500 →
      makeApiReq opts oracle (f + 1) idx d rc =
        ⟨Except.error (ApiFail.http code), idx + 1, d, []⟩) ∧
    (oracle idx = ApiOutcome.httpErr code → jsOrNat opts.maxRetries 3 ≤ rc →
      makeApiReq opts oracle (f + 1) idx d rc =
        ⟨Except.error (ApiFail.http code), idx + 1, d, []⟩) := by
  refine ⟨fun h1 h2 => ?_, fun h1 h2 h3 => ?_, fun h1 h2 h3 => ?_, fun h1 h2 => ?_⟩
  · simp only [makeApiReq, h1, if_pos h2]
    simp
  · simp only [makeApiReq, h1, if_pos h3]
    have hne : code ≠ 429 := by omega
    simp [hne, h2]
  · simp only [makeApiReq, h1]
    by_cases hrc : rc < jsOrNat opts.maxRetries 3
    · simp [hrc, h2, Nat.not_le.mpr (by omega : code < 500)]
    · simp [hrc]
  · simp only [makeApiReq, h1, if_neg (Nat.not_lt.mpr h2)]

/-- C9, witness: a 404 response propagates at once; the dispatch issues
exactly one request and performs no backoff wait. -/
theorem c9_retry_policy_witness :
    makeApiReq optsKoEn (fun _ => ApiOutcome.httpErr 404) 4 0 1000 0 =
      ⟨Except.error (ApiFail.http 404), 1, 1000, []⟩ :=
  (c9_retry_policy optsKoEn (fun _ => ApiOutcome.httpErr 404) 3 0 1000 0
    404).2.2.1 rfl (by decide) (by decide)

/-- C5: empty or whitespace-only input, and input longer than
`maxLength || 5000`, is rejected with a validation error before any request
is dispatched and before the rate state is touched. -/
theorem c5_input_rejection (opts : TOpts) (rid : Str) (oracle : Nat → ApiOutcome)
    (fuel : Nat) (text : Str) (ctx : Option Str) (idx d : Nat)
    (h : (jsTrim text).isEmpty = true ∨ jsOrNat opts.maxLength 5000 < text.length) :
    ∃ e, translateM opts rid oracle fuel text ctx idx d =
      ⟨Except.error e, idx, d, []⟩ ∧
      (e = TransFail.emptyText ∨ e = TransFail.tooLong) := by
  by_cases h1 : (text.isEmpty || (jsTrim text).isEmpty) = true
  · exact ⟨TransFail.emptyText, by simp [translateM, h1], Or.inl rfl⟩
  · have h2 : jsOrNat opts.maxLength 5000 < text.length := by
      rcases h with h | h
      · exact absurd (by simp [h]) h1
      · exact h
    exact ⟨TransFail.tooLong, by simp [translateM] at h1 ⊢; simp [h1, h2], Or.inr rfl⟩

/-- C5, witness: `translate("")` and `translate("   ")` are both rejected
without touching the network or the rate state. -/
theorem c5_input_rejection_witness :
    (∃ e, translateM optsKoEn rid0 (fun _ => ApiOutcome.success (str "x"))
        4 (str "") none 0 1000 = ⟨Except.error e, 0, 1000, []⟩ ∧
      (e = TransFail.emptyText ∨ e = TransFail.tooLong)) ∧
    (∃ e, translateM optsKoEn rid0 (fun _ => ApiOutcome.success (str "x"))
        4 (str "   ") none 0 1000 = ⟨Except.error e, 0, 1000, []⟩ ∧
      (e = TransFail.emptyText ∨ e = TransFail.tooLong)) :=
  ⟨c5_input_rejection optsKoEn rid0 _ 4 (str "") none 0 1000 (Or.inl (by decide)),
   c5_input_rejection optsKoEn rid0 _ 4 (str "   ") none 0 1000 (Or.inl (by decide))⟩

theorem take_split (P X : Str) (n : Nat) (hn : P.length ≤ n) :
    (P ++ X).take n = P ++ X.take (n - P.length) := by
  have h : n = P.length + (n - P.length) := by omega
  conv_lhs => rw [h, take_len_app]

theorem occ_within {t x rest e : Str} {i : Nat}
    (hd : (x ++ rest).drop i = t ++ e) (hle : i + t.length ≤ x.length) :
    ifxP t x := by
  set W := x ++ rest with hW
  have hiW : i ≤ W.length := by
    have : x.length ≤ W.length := by simp [hW]
    omega
  have hsplit : W = W.take i ++ (t ++ e) := by rw [← hd]; simp
  have hleni : (W.take i).length = i := by rw [List.length_take]; omega
  have e1 : W.take x.length = x := by simp [hW]
  have e2 : W.take x.length = W.take i ++ (t ++ e.take (x.length - i - t.length)) := by
    have s1 := take_split (W.take i) (t ++ e) x.length (by omega)
    rw [hleni] at s1
    have s2 := take_split t e (x.length - i) (by omega)
    conv_lhs => rw [hsplit]
    rw [s1, s2]
  exact ⟨W.take i, e.take (x.length - i - t.length), by
    rw [List.append_assoc, ← e2, e1]⟩

theorem mem_of_pfx {c : Char} {x y : Str} (h : pfxP x y) (hm : c ∈ x) : c ∈ y := by
  rcases h with ⟨w, rfl⟩
  exact List.mem_append_left w hm

theorem space_not_in_delim {rid : Str} (hr : ridOk rid = true) :
    ' ' ∉ ctxDelim rid := by
  intro hmem
  have hall : rid.all alnumLower = true := by
    have := (Bool.and_eq_true _ _).mp hr
    exact this.2
  rcases List.mem_append.mp hmem with h | h
  · rcases List.mem_append.mp h with h | h
    · simp [str] at h
    · have := List.all_eq_true.mp hall _ h
      simp [alnumLower, isLowerC, isDigitC] at this
  · simp [str] at h

theorem marker_pfx_delim (rid : Str) : pfxP (str "__DEEPL_CTX") (ctxDelim rid) :=
  ⟨str "_" ++ rid ++ str "__", by simp [ctxDelim, str]⟩

theorem idxOf_none {t : Str} : ∀ {s : Str}, containsLit t s = false →
    indexOfLit t s = none := by
  intro s
  induction s with
  | nil =>
    intro h
    simp only [containsLit] at h
    simp [indexOfLit, h]
  | cons c s' ih =>
    intro h
    simp only [containsLit, Bool.or_eq_false_iff] at h
    simp [indexOfLit, h.1, ih h.2]

/-- C7, counterexample: unwrapping trims the response, so a masked text with
trailing whitespace does not round-trip verbatim through an echoing
provider. -/
theorem c7_counterexample :
    unwrapCtx rid0 (str "ctx") (wrapCtx rid0 (str "ctx") (str "hello ")) =
      str "hello" ∧ str "hello" ≠ str "hello " :=
  ⟨rfl, by decide⟩

/-- C7, amended: when the provider echoes the wire text verbatim, unwrapping
returns the masked text trimmed of leading and trailing whitespace — equal to
the masked text exactly when that is already trimmed — for every context
containing no `__DEEPL_CTX` substring. -/
theorem c7_amended (rid ctx M : Str) (hr : ridOk rid = true)
    (hc : containsLit (str "__DEEPL_CTX") ctx = false) :
    unwrapCtx rid ctx (wrapCtx rid ctx M) = jsTrim M := by
  have hwrap : wrapCtx rid ctx M = (ctx ++ [' ']) ++ (ctxDelim rid ++ ' ' :: M) := by
    simp [wrapCtx]
  have hno : ∀ i, i < (ctx ++ [' ']).length →
      (ctxDelim rid).isPrefixOf
        (((ctx ++ [' ']) ++ (ctxDelim rid ++ ' ' :: M)).drop i) = false := by
    intro i hi
    have hia : (ctx ++ [' ']).length = ctx.length + 1 := by simp
    rw [hia] at hi
    cases hb : (ctxDelim rid).isPrefixOf
        (((ctx ++ [' ']) ++ (ctxDelim rid ++ ' ' :: M)).drop i) with
    | false => rfl
    | true =>
      exfalso
      rcases (isPrefixOf_iff _ _).mp hb with ⟨e, he⟩
      by_cases hcase : i + (ctxDelim rid).length ≤ ctx.length
      · have hassoc : (ctx ++ [' ']) ++ (ctxDelim rid ++ ' ' :: M) =
            ctx ++ ([' '] ++ (ctxDelim rid ++ ' ' :: M)) := by simp
        rw [hassoc] at he
        have hocc : ifxP (ctxDelim rid) ctx := occ_within he hcase
        have hmk : ifxP (str "__DEEPL_CTX") ctx :=
          ifx_trans (pfx_ifx (marker_pfx_delim rid)) hocc
        rw [← containsLit_iff] at hmk
        rw [hc] at hmk
        cases hmk
      · have hi' : i ≤ ctx.length := by omega
        have hdrop : ((ctx ++ [' ']) ++ (ctxDelim rid ++ ' ' :: M)).drop i =
            (ctx.drop i ++ [' ']) ++ (ctxDelim rid ++ ' ' :: M) := by
          rw [List.drop_append_of_le_length (by rw [hia]; omega)]
          congr 1
          rw [List.drop_append_of_le_length hi']
        have heq : ctxDelim rid ++ e =
            (ctx.drop i ++ [' ']) ++ (ctxDelim rid ++ ' ' :: M) := by
          rw [← he, hdrop]
        have hpf : pfxP (ctx.drop i ++ [' ']) (ctxDelim rid ++ e) :=
          ⟨ctxDelim rid ++ ' ' :: M, heq⟩
        have hlen : (ctx.drop i ++ [' ']).length ≤ (ctxDelim rid).length := by
          simp [List.length_drop]
          omega
        exact (space_not_in_delim hr)
          (mem_of_pfx (pfx_of_pfx_app hpf hlen) (by simp))
  have hidx : indexOfLit (ctxDelim rid)
      ((ctx ++ [' ']) ++ (ctxDelim rid ++ ' ' :: M)) = some (ctx ++ [' ']).length :=
    idxOf_through (ctxDelim rid) (ctx ++ [' ']) (ctxDelim rid ++ ' ' :: M) hno
      (pfx_self_app (ctxDelim rid) (' ' :: M))
  rw [hwrap]
  simp only [unwrapCtx, hidx]
  have hdrop2 : ((ctx ++ [' ']) ++ (ctxDelim rid ++ ' ' :: M)).drop
      ((ctx ++ [' ']).length + (ctxDelim rid).length) = ' ' :: M := by
    have hre : (ctx ++ [' ']) ++ (ctxDelim rid ++ ' ' :: M) =
        ((ctx ++ [' ']) ++ ctxDelim rid) ++ (' ' :: M) := by simp
    have hl : (ctx ++ [' ']).length + (ctxDelim rid).length =
        ((ctx ++ [' ']) ++ ctxDelim rid).length + 0 := by simp; omega
    rw [hre, hl, drop_len_app]
    rfl
  rw [hdrop2, jsTrim_space_cons]

/-- C7, witness for the amended theorem at a concrete context and a trimmed
masked text. -/
theorem c7_amended_witness :
    unwrapCtx rid0 (str "item count") (wrapCtx rid0 (str "item count") (str "hola")) =
      jsTrim (str "hola") :=
  c7_amended rid0 (str "item count") (str "hola") (by decide) (by decide)

/-- C8, counterexample: with context of length 3 and a delimiter-free
response of length 10, the fallback removes `min(6, 5) = 5` leading
characters, not the 6 the claim requires. -/
theorem c8_counterexample :
    unwrapCtx rid0 (str "abc") (str "0123456789") = str "56789" ∧
    str "56789" ≠ str "6789" :=
  ⟨rfl, by decide⟩

/-- C8, amended: when the delimiter does not occur in the response, the
fallback removes `min(2·|context|, ⌊|response|/2⌋)` leading characters and
trims the remainder. -/
theorem c8_amended (rid ctx resp : Str)
    (h : containsLit (ctxDelim rid) resp = false) :
    unwrapCtx rid ctx resp =
      jsTrim (resp.drop (min (2 * ctx.length) (resp.length / 2))) := by
  simp only [unwrapCtx, idxOf_none h]

/-- C8, witness for the amended theorem. -/
theorem c8_amended_witness :
    unwrapCtx rid0 (str "abc") (str "qrstuvwxyz") =
      jsTrim ((str "qrstuvwxyz").drop (min (2 * (str "abc").length)
        ((str "qrstuvwxyz").length / 2))) :=
  c8_amended rid0 (str "abc") (str "qrstuvwxyz") (by decide)

/-- Every dispatch of an attempt cascade entered in forced value-only mode or
at retry count at least one sends exactly the masked text. -/
theorem attempt_wires_pt (opts : TOpts) (rid : Str) (oracle : Nat → ApiOutcome)
    (pt : Str) (vars : List Span) (orig : Str) (useCtx : Bool) :
    ∀ (f : Nat) (sanCtx : Option Str) (rc : Nat) (force : Bool) (idx d : Nat),
      (force = true ∨ 1 ≤ rc) →
      ∀ w ∈ (attemptTr opts rid oracle f pt vars orig sanCtx useCtx rc force idx d).wires,
        w = pt := by
  intro f
  induction f with
  | zero =>
    intro sanCtx rc force idx d h w hw
    simp [attemptTr] at hw
  | succ f ih =>
    intro sanCtx rc force idx d h w hw
    have huvm : (force || decide (1 ≤ rc)) = true := by
      rcases h with h | h
      · simp [h]
      · simp [h]
    simp only [attemptTr] at hw
    by_cases hrc : rc > min (jsOrNat opts.maxRetries 3) 3
    · rw [if_pos hrc] at hw
      simp at hw
    · rw [if_neg hrc] at hw
      simp only [huvm, Bool.not_true, Bool.and_false, Bool.false_eq_true,
        if_false] at hw
      rcases sanCtx with _ | c
      ·
        generalize hA : makeApiReq opts oracle (jsOrNat opts.maxRetries 3 + 1) idx d 0 = A at hw
        obtain ⟨res, ridx2, cdel2, ws2⟩ := A
        cases res with
        | error e =>
          simp at hw
          exact hw
        | ok r0 =>
          rw [apply_ite AttRes.wires] at hw
          simp only [Bool.and_eq_true, decide_eq_true_eq, Nat.lt_min,
            Bool.false_eq_true, if_false] at hw
          by_cases hP : shouldRetranslate (postProcess opts rid r0 orig vars) = true ∧
              rc < jsOrNat opts.maxRetries 3 ∧ rc < 3
          · rw [if_pos hP] at hw
            simp at hw
            rcases hw with rfl | hw2
            · rfl
            · exact ih _ (rc + 1) true _ _ (Or.inl rfl) w hw2
          · rw [if_neg hP] at hw
            simp at hw
            exact hw
      ·
        generalize hA : makeApiReq opts oracle (jsOrNat opts.maxRetries 3 + 1) idx d 0 = A at hw
        obtain ⟨res, ridx2, cdel2, ws2⟩ := A
        cases res with
        | error e =>
          simp at hw
          exact hw
        | ok r0 =>
          rw [apply_ite AttRes.wires] at hw
          simp only [Bool.and_eq_true, decide_eq_true_eq, Nat.lt_min,
            Bool.false_eq_true, if_false] at hw
          by_cases hP : shouldRetranslate (postProcess opts rid r0 orig vars) = true ∧
              rc < jsOrNat opts.maxRetries 3 ∧ rc < 3
          · rw [if_pos hP] at hw
            simp at hw
            rcases hw with rfl | hw2
            · rfl
            · exact ih _ (rc + 1) true _ _ (Or.inl rfl) w hw2
          · rw [if_neg hP] at hw
            simp at hw
            exact hw

/-- C1, amended: after the first dispatch of a cascade started at attempt 0
without forced value-only mode, every further dispatch of the same cascade
sends the bare masked text: the escalation switches directly to value-only
from the first retry on, and the three-word short-context branch is
unreachable. -/
theorem c1_amended (opts : TOpts) (rid : Str) (oracle : Nat → ApiOutcome)
    (f : Nat) (pt : Str) (vars : List Span) (orig : Str) (sanCtx : Option Str)
    (useCtx : Bool) (idx d : Nat) (w : Str)
    (hw : w ∈ (attemptTr opts rid oracle f pt vars orig sanCtx useCtx
      0 false idx d).wires.tail) :
    w = pt := by
  cases f with
  | zero => simp [attemptTr] at hw
  | succ f =>
    simp only [attemptTr] at hw
    have hrc : ¬ (0 > min (jsOrNat opts.maxRetries 3) 3) := by omega
    rw [if_neg hrc] at hw
    simp only [show (decide (1 ≤ 0)) = false from rfl, Bool.or_false,
      Bool.not_false, Bool.and_true, Bool.false_eq_true, if_false,
      Option.getD_some] at hw
    rcases sanCtx with _ | c
    ·
      generalize hA : makeApiReq opts oracle (jsOrNat opts.maxRetries 3 + 1) idx d 0 = A at hw
      obtain ⟨res, ridx2, cdel2, ws2⟩ := A
      cases res with
      | error e => simp at hw
      | ok r0 =>
        simp only [Bool.false_eq_true, if_false, Option.getD_some] at hw
        by_cases hemp : List.isEmpty (jsTrim r0) = true
        · rw [if_pos hemp] at hw
          simp at hw
          exact attempt_wires_pt opts rid oracle pt vars orig useCtx f none 0 true
            _ _ (Or.inl rfl) w hw
        · rw [if_neg hemp] at hw
          by_cases hemp2 : List.isEmpty (jsTrim (postProcess opts rid
              r0 orig vars)) = true
          · rw [if_pos hemp2] at hw
            simp at hw
            exact attempt_wires_pt opts rid oracle pt vars orig useCtx f none 0 true
              _ _ (Or.inl rfl) w hw
          · rw [if_neg hemp2] at hw
            by_cases hsr : (shouldRetranslate (postProcess opts rid
                r0 orig vars) &&
                decide (0 < min (jsOrNat opts.maxRetries 3) 3)) = true
            · rw [if_pos hsr] at hw
              simp at hw
              exact attempt_wires_pt opts rid oracle pt vars orig useCtx f none 1 false
                _ _ (Or.inr (Nat.le_refl 1)) w hw
            · rw [if_neg hsr] at hw
              simp at hw
    ·
      generalize hA : makeApiReq opts oracle (jsOrNat opts.maxRetries 3 + 1) idx d 0 = A at hw
      obtain ⟨res, ridx2, cdel2, ws2⟩ := A
      cases res with
      | error e => simp at hw
      | ok r0 =>
        simp only [Bool.false_eq_true, if_false, Option.getD_some] at hw
        by_cases hemp : List.isEmpty (jsTrim r0) = true
        · rw [if_pos hemp] at hw
          simp at hw
          exact attempt_wires_pt opts rid oracle pt vars orig useCtx f none 0 true
            _ _ (Or.inl rfl) w hw
        · rw [if_neg hemp] at hw
          by_cases hemp2 : List.isEmpty (jsTrim (postProcess opts rid
              (if (jsTruthy c && useCtx) = true then unwrapCtx rid c r0 else r0) orig vars)) = true
          · rw [if_pos hemp2] at hw
            simp at hw
            exact attempt_wires_pt opts rid oracle pt vars orig useCtx f none 0 true
              _ _ (Or.inl rfl) w hw
          · rw [if_neg hemp2] at hw
            by_cases hsr : (shouldRetranslate (postProcess opts rid
                (if (jsTruthy c && useCtx) = true then unwrapCtx rid c r0 else r0) orig vars) &&
                decide (0 < min (jsOrNat opts.maxRetries 3) 3)) = true
            · rw [if_pos hsr] at hw
              simp at hw
              exact attempt_wires_pt opts rid oracle pt vars orig useCtx f (some c) 1 false
                _ _ (Or.inr (Nat.le_refl 1)) w hw
            · rw [if_neg hsr] at hw
              simp at hw

/-- C1, counterexample: with a provider failing validation on the
full-context attempt, the second dispatched wire text is the bare masked
text, not the short-context form the claim requires. -/
theorem c1_counterexample :
    (translateM optsKoEn rid0
        (fun n => if n = 0 then ApiOutcome.success respBadKey
          else ApiOutcome.success (str "bonjour"))
        4 (str "hello") (some (str "alpha beta gamma delta")) 0 1000).wires =
      [wrapCtx rid0 (str "alpha beta gamma delta") (str "hello"), str "hello"] ∧
    str "hello" ≠ wrapCtx rid0 (shortCtx (str "alpha beta gamma delta")) (str "hello") :=
  ⟨rfl, by decide⟩

/-- C1, witness for the amended theorem at the concrete failing-provider
scenario: the wire dispatched after the full-context attempt is the masked
text itself. -/
theorem c1_amended_witness : str "hello" = str "hello" :=
  c1_amended optsKoEn rid0
    (fun n => if n = 0 then ApiOutcome.success respBadKey
      else ApiOutcome.success (str "bonjour"))
    16 (str "hello") [] (str "hello") (some (str "alpha beta gamma delta"))
    true 0 1000 (str "hello") (by decide)

/-- C3, amended: the extra-variables condition only sets a discarded internal
flag; a value-only attempt whose transport succeeds, whose response and
post-processed text are non-blank, and whose post-processed text carries no
residual marker or source-key pattern is accepted immediately with exactly
one dispatch — even when it contains strictly more placeholders than the
original and attempts remain. -/
theorem c3_amended (opts : TOpts) (rid : Str) (oracle : Nat → ApiOutcome)
    (f : Nat) (pt : Str) (vars : List Span) (orig : Str) (useCtx : Bool)
    (rc : Nat) (force : Bool) (idx d : Nat) (resp : Str)
    (hrc : rc ≤ min (jsOrNat opts.maxRetries 3) 3)
    (hor : oracle idx = ApiOutcome.success resp)
    (hne : (jsTrim resp).isEmpty = false)
    (hq : (jsTrim (postProcess opts rid resp orig vars)).isEmpty = false)
    (hsr : shouldRetranslate (postProcess opts rid resp orig vars) = false)
    (hextra : jsCount varPatM orig <
      jsCount varPatM (postProcess opts rid resp orig vars)) :
    attemptTr opts rid oracle (f + 1) pt vars orig none useCtx rc force idx d =
      ⟨Except.ok (postProcess opts rid resp orig vars), idx + 1,
        jsOrNat opts.delayBetweenRequests 1000, [pt]⟩ := by
  simp only [attemptTr]
  rw [if_neg (by omega : ¬ rc > min (jsOrNat opts.maxRetries 3) 3)]
  have hapi : makeApiReq opts oracle (jsOrNat opts.maxRetries 3 + 1) idx d 0 =
      ⟨Except.ok resp, idx + 1, jsOrNat opts.delayBetweenRequests 1000, []⟩ := by
    simp [makeApiReq, hor]
  rw [hapi]
  simp [hne, hq, hsr]

/-- Helper: every successful `translateText` run returns a record whose
`originalText` is the caller's input and whose languages are the configured
ones. -/
theorem ttm_fields (opts : TOpts) (rid : Str) (oracle : Nat → ApiOutcome) :
    ∀ (f : Nat) (text : Str) (ctx : Option Str) (idx d : Nat) (r : TransResult),
      (translateTextM opts rid oracle f text ctx idx d).result = Except.ok r →
      r.originalText = text ∧ r.sourceLanguage = opts.sourceLanguage ∧
        r.targetLanguage = opts.targetLanguage := by
  intro f
  induction f with
  | zero =>
    intro text ctx idx d r h
    simp [translateTextM] at h
  | succ f ih =>
    intro text ctx idx d r h
    simp only [translateTextM] at h
    generalize hA : attemptTr opts rid oracle 16
      (preprocess opts rid text ctx).processedText
      (preprocess opts rid text ctx).varList text
      (if (preprocess opts rid text ctx).useContext then
        (preprocess opts rid text ctx).sanitizedContext else none)
      (preprocess opts rid text ctx).useContext 0
      (preprocess opts rid text ctx).valueOnly idx d = A at h
    obtain ⟨res, ridx2, cdel2, ws2⟩ := A
    cases res with
    | error e => simp at h
    | ok t0 =>
      simp only [] at h
      by_cases hemp : List.isEmpty (jsTrim (finalCleanup t0)) = true
      · rw [if_pos hemp] at h
        simp only [] at h
        exact ih text none _ _ r h
      · rw [if_neg hemp] at h
        simp only [] at h
        injection h with h2
        subst h2
        exact ⟨rfl, rfl, rfl⟩

/-- C10: every successful `translate` call returns the caller's input string
unchanged as `originalText`, and the configured source and target languages. -/
theorem c10_frame (opts : TOpts) (rid : Str) (oracle : Nat → ApiOutcome)
    (fuel : Nat) (text : Str) (ctx : Option Str) (idx d : Nat) (r : TransResult)
    (h : (translateM opts rid oracle fuel text ctx idx d).result = Except.ok r) :
    r.originalText = text ∧ r.sourceLanguage = opts.sourceLanguage ∧
      r.targetLanguage = opts.targetLanguage := by
  simp only [translateM] at h
  by_cases h1 : (text.isEmpty || (jsTrim text).isEmpty) = true
  · rw [if_pos h1] at h
    simp at h
  · rw [if_neg h1] at h
    by_cases h2 : jsOrNat opts.maxLength 5000 < text.length
    · rw [if_pos h2] at h
      simp at h
    · rw [if_neg h2] at h
      generalize hA : translateTextM opts rid oracle fuel text ctx idx d = A at h
      obtain ⟨res, ridx2, cdel2, ws2⟩ := A
      cases res with
      | error e => simp at h
      | ok v =>
        have hv : (translateTextM opts rid oracle fuel text ctx idx d).result =
            Except.ok v := by rw [hA]
        simp only [] at h
        injection h with h2
        subst h2
        exact ttm_fields opts rid oracle fuel text ctx idx d v hv

/-- C3, counterexample: a provider adding an extra `{x}` placeholder is
accepted on the first attempt — one dispatch only — although attempts
remained, contradicting the claimed must-retry behaviour. -/
theorem c3_counterexample :
    (translateM optsKoEn rid0 (fun _ => ApiOutcome.success (str "bonjour {x}"))
        4 (str "hello") none 0 1000).wires.length = 1 ∧
    (translateM optsKoEn rid0 (fun _ => ApiOutcome.success (str "bonjour {x}"))
        4 (str "hello") none 0 1000).result =
      Except.ok ⟨str "hello", str "bonjour {x}", str "ko", str "en"⟩ ∧
    jsCount varPatM (str "hello") < jsCount varPatM (str "bonjour {x}") ∧
    0 < min (jsOrNat optsKoEn.maxRetries 3) 3 :=
  ⟨rfl, rfl, by decide, by decide⟩

/-- C3, witness for the amended theorem at the extra-placeholder scenario. -/
theorem c3_amended_witness :
    attemptTr optsKoEn rid0 (fun _ => ApiOutcome.success (str "bonjour {x}"))
        1 (str "hello") [] (str "hello") none true 0 false 0 1000 =
      ⟨Except.ok (postProcess optsKoEn rid0 (str "bonjour {x}") (str "hello") []),
        1, jsOrNat optsKoEn.delayBetweenRequests 1000, [str "hello"]⟩ :=
  c3_amended optsKoEn rid0 (fun _ => ApiOutcome.success (str "bonjour {x}"))
    0 (str "hello") [] (str "hello") true 0 false 0 1000 (str "bonjour {x}")
    (by decide) rfl (by decide) (by decide) (by decide) (by decide)

/-- C2, amended: whenever the attempt cascade completes without a transport
error and the final cleanup of its best-effort text is non-blank, `translate`
returns that cleaned text rather than raising; the cleanup, however, is a
single scan whose deletions may splice fragments into fresh marker patterns
that survive in the returned string. -/
theorem c2_amended (opts : TOpts) (rid : Str) (oracle : Nat → ApiOutcome)
    (f : Nat) (text : Str) (ctx : Option Str) (idx d : Nat) (t0 : Str)
    (hatt : (attemptTr opts rid oracle 16
        (preprocess opts rid text ctx).processedText
        (preprocess opts rid text ctx).varList text
        (if (preprocess opts rid text ctx).useContext then
          (preprocess opts rid text ctx).sanitizedContext else none)
        (preprocess opts rid text ctx).useContext 0
        (preprocess opts rid text ctx).valueOnly idx d).result = Except.ok t0)
    (hne : (jsTrim (finalCleanup t0)).isEmpty = false) :
    (translateTextM opts rid oracle (f + 1) text ctx idx d).result =
      Except.ok
        { originalText := text, translatedText := finalCleanup t0,
          sourceLanguage := opts.sourceLanguage,
          targetLanguage := opts.targetLanguage } := by
  simp only [translateTextM]
  rw [hatt]
  simp [hne]

/-- C2, counterexample: a provider response whose fragments splice into a
fresh delimiter pattern makes `translate` return a string still matching
`__DEEPL_CTX[a-z0-9_]*__`. -/
theorem c2_counterexample :
    (translateM optsKoEn rid0 (fun _ => ApiOutcome.success respC2)
        4 (str "hello") none 0 1000).result =
      Except.ok ⟨str "hello", str "__DEEPL_CTX_abc__", str "ko", str "en"⟩ ∧
    jsTest ctxTokM (str "__DEEPL_CTX_abc__") = true :=
  ⟨rfl, by decide⟩

/-- C2, witness for the amended theorem at the splicing scenario. -/
theorem c2_amended_witness :
    (translateTextM optsKoEn rid0 (fun _ => ApiOutcome.success respC2)
        4 (str "hello") none 0 1000).result =
      Except.ok
        { originalText := str "hello",
          translatedText := finalCleanup (str "__DEEPL_CTX_ _abc____DEEPL_CTX_x__"),
          sourceLanguage := optsKoEn.sourceLanguage,
          targetLanguage := optsKoEn.targetLanguage } :=
  c2_amended optsKoEn rid0 (fun _ => ApiOutcome.success respC2) 3 (str "hello")
    none 0 1000 (str "__DEEPL_CTX_ _abc____DEEPL_CTX_x__") rfl (by decide)

/-- C10, witness at a concrete successful run. -/
theorem c10_frame_witness :
    (⟨str "hello", str "bonjour", str "ko", str "en"⟩ : TransResult).originalText =
        str "hello" ∧
    (⟨str "hello", str "bonjour", str "ko", str "en"⟩ : TransResult).sourceLanguage =
        optsKoEn.sourceLanguage ∧
    (⟨str "hello", str "bonjour", str "ko", str "en"⟩ : TransResult).targetLanguage =
        optsKoEn.targetLanguage :=
  c10_frame optsKoEn rid0 (fun _ => ApiOutcome.success (str "bonjour"))
    4 (str "hello") none 0 1000 ⟨str "hello", str "bonjour", str "ko", str "en"⟩ rfl

/-! C6 development -/

theorem tw_split (p : Char → Bool) : ∀ l : Str,
    l = l.takeWhile p ++ l.drop (l.takeWhile p).length := by
  intro l
  induction l with
  | nil => rfl
  | cons c l' ih =>
    by_cases hc : p c = true
    · simp only [List.takeWhile]
      rw [hc]
      simpa using ih
    · simp only [List.takeWhile]
      rw [Bool.of_not_eq_true hc]
      simp

theorem varCapM_eq {s n r : Str} (h : varCapM s = some (n, r)) :
    s = lbrace :: (n ++ rbrace :: r) ∧ n ≠ [] := by
  cases s with
  | nil => exact absurd h (by simp [varCapM])
  | cons c rest =>
    by_cases hc : c = lbrace
    · rw [varCapM, if_pos hc] at h
      set run := rest.takeWhile (fun d => d ≠ rbrace) with hrun
      by_cases he : run.isEmpty
      · rw [if_pos he] at h; exact absurd h (by simp)
      · rw [if_neg he] at h
        cases hd : rest.drop run.length with
        | nil => rw [hd] at h; exact absurd h (by simp)
        | cons d rest2 =>
          rw [hd] at h
          change (if d = rbrace then some (run, rest2) else none) = some (n, r) at h
          by_cases hdr : d = rbrace
          · rw [if_pos hdr] at h
            injection h with h1
            injection h1 with hn hr
            have hsplit := tw_split (fun d => d ≠ rbrace) rest
            rw [← hrun, hd] at hsplit
            constructor
            · rw [hc, hsplit, hdr, hn, hr]
            · intro hnil
              exact he (by rw [hn, hnil]; rfl)
          · rw [if_neg hdr] at h; exact absurd h (by simp)
    · rw [varCapM, if_neg hc] at h; exact absurd h (by simp)

theorem extract_spec : ∀ (f : Nat) (pos : Nat) (s : Str), s.length ≤ f →
    ExtractsFrom pos s (extractAux f pos s) := by
  intro f
  induction f with
  | zero =>
    intro pos s hs
    have : s = [] := List.eq_nil_of_length_eq_zero (by omega)
    subst this
    exact ExtractsFrom.done pos
  | succ f ih =>
    intro pos s hs
    cases s with
    | nil => exact ExtractsFrom.done pos
    | cons c s' =>
      cases hm : varCapM (c :: s') with
      | none =>
        rw [extractAux, hm]
        exact ExtractsFrom.skip pos c s' _ hm (ih (pos + 1) s' (by simp at hs; omega))
      | some nr =>
        obtain ⟨n, r⟩ := nr
        rw [extractAux, hm]
        have hlen : (c :: s').length = n.length + r.length + 2 := by
          rw [(varCapM_eq hm).1]; simp; omega
        exact ExtractsFrom.found pos _ n r _ hm
          (ih (pos + n.length + 2) r (by rw [hlen] at hs; omega))

theorem spos {pos : Nat} {s : Str} {sp : List Span}
    (h : ExtractsFrom pos s sp) : ∀ v ∈ sp, pos ≤ v.s ∧ v.s < v.e := by
  induction h with
  | done => intro v hv; exact absurd hv (by simp)
  | skip pos c s' sp _ _ ih =>
    intro v hv
    have := ih v hv
    omega
  | found pos s n r sp _ _ ih =>
    intro v hv
    rcases List.mem_cons.mp hv with hv | hv
    · subst hv; simp; omega
    · have := ih v hv; omega

theorem enumFrom_snd_mem {α : Type} {iv : Nat × α} : ∀ {j : Nat} {l : List α},
    iv ∈ List.enumFrom j l → iv.2 ∈ l := by
  intro j l
  induction l generalizing j with
  | nil => intro h; exact absurd h (by simp)
  | cons x xs ih =>
    intro h
    rcases List.mem_cons.mp h with h | h
    · rw [h]; exact List.mem_cons_self _ _
    · exact List.mem_cons_of_mem _ (ih h)

theorem splice_cons (rid : Str) (pos : Nat) (c : Char) (t : Str) :
    ∀ svs : List (Nat × Span),
    (∀ iv ∈ svs, pos + 1 ≤ iv.2.s ∧ pos + 1 ≤ iv.2.e) →
    spliceFold rid pos svs (c :: t) = c :: spliceFold rid (pos + 1) svs t := by
  intro svs
  induction svs with
  | nil => intro _; rfl
  | cons iv rest ih =>
    intro h
    have hrest := ih (fun x hx => h x (List.mem_cons_of_mem _ hx))
    have hiv := h iv (List.mem_cons_self _ _)
    show (spliceFold rid pos rest (c :: t)).take (iv.2.s - pos) ++ varToken rid iv.1 ++
        (spliceFold rid pos rest (c :: t)).drop (iv.2.e - pos) = _
    rw [hrest]
    have hs : iv.2.s - pos = (iv.2.s - (pos + 1)) + 1 := by omega
    have he : iv.2.e - pos = (iv.2.e - (pos + 1)) + 1 := by omega
    rw [hs, he, List.take_succ_cons, List.drop_succ_cons]
    rfl

theorem splice_pre (rid : Str) (t : Str) : ∀ (P : Str) (pos : Nat)
    (svs : List (Nat × Span)),
    (∀ iv ∈ svs, pos + P.length ≤ iv.2.s ∧ pos + P.length ≤ iv.2.e) →
    spliceFold rid pos svs (P ++ t) = P ++ spliceFold rid (pos + P.length) svs t := by
  intro P
  induction P with
  | nil => intro pos svs _; simp
  | cons c P' ih =>
    intro pos svs h
    have h1 : ∀ iv ∈ svs, pos + 1 ≤ iv.2.s ∧ pos + 1 ≤ iv.2.e := by
      intro iv hiv
      have := h iv hiv
      simp at this
      omega
    have hcons : (c :: P') ++ t = c :: (P' ++ t) := rfl
    rw [hcons, splice_cons rid pos c _ svs h1, ih (pos + 1) svs (by
      intro iv hiv
      have := h iv hiv
      simp at this ⊢
      omega)]
    have : pos + (c :: P').length = pos + 1 + P'.length := by simp; omega
    rw [this]
    rfl

theorem chunks_of_extract (rid : Str) {pos : Nat} {s : Str} {sp : List Span}
    (h : ExtractsFrom pos s sp) :
    ∃ ch : Chunks, s = origOf ch ∧ namesOf ch = sp.map Span.name ∧
      slotsOf ch = sp.length ∧
      ∀ j, spliceFold rid pos (List.enumFrom j sp) s = mixOf rid 0 ch j := by
  induction h with
  | done pos => exact ⟨Chunks.last [], rfl, rfl, rfl, fun j => rfl⟩
  | skip pos c s' sp hnone hrec ih =>
    obtain ⟨ch, h1, h2, h3, h4⟩ := ih
    refine ⟨consChar c ch, ?_, ?_, ?_, ?_⟩
    · cases ch <;> simp [consChar, origOf] at h1 ⊢ <;> exact h1
    · cases ch <;> simpa [consChar, namesOf] using h2
    · cases ch <;> simpa [consChar, slotsOf] using h3
    · intro j
      have hmem : ∀ iv ∈ List.enumFrom j sp, pos + 1 ≤ iv.2.s ∧ pos + 1 ≤ iv.2.e := by
        intro iv hiv
        have := spos hrec iv.2 (enumFrom_snd_mem hiv)
        omega
      rw [splice_cons rid pos c s' _ hmem, h4 j]
      cases ch <;> simp [consChar, mixOf]
  | found pos s n r sp hsome hrec ih =>
    obtain ⟨ch, h1, h2, h3, h4⟩ := ih
    obtain ⟨hdec, hne⟩ := varCapM_eq hsome
    have hbr : s = braceName n ++ r := by
      rw [hdec, braceName]
      simp
    refine ⟨Chunks.cons [] n ch, ?_, ?_, ?_, ?_⟩
    · rw [hbr, h1]; rfl
    · simp [namesOf, h2]
    · simp [slotsOf, h3]
    · intro j
      show spliceFold rid pos ((j, _) :: List.enumFrom (j + 1) sp) s = _
      show (spliceFold rid pos (List.enumFrom (j + 1) sp) s).take _ ++
          varToken rid j ++ (spliceFold rid pos (List.enumFrom (j + 1) sp) s).drop _ = _
      have hmem : ∀ iv ∈ List.enumFrom (j + 1) sp,
          pos + (braceName n).length ≤ iv.2.s ∧ pos + (braceName n).length ≤ iv.2.e := by
        intro iv hiv
        have hp := spos hrec iv.2 (enumFrom_snd_mem hiv)
        have hbl : (braceName n).length = n.length + 2 := by simp [braceName]
        omega
      rw [hbr, splice_pre rid r (braceName n) pos _ hmem]
      have hbl : (braceName n).length = n.length + 2 := by simp [braceName]
      have hpn : pos + (braceName n).length = pos + n.length + 2 := by rw [hbl]; omega
      rw [hpn, h4 (j + 1)]
      have he2 : (j, Span.mk pos (pos + n.length + 2) n).2.s - pos = 0 := by simp
      have he1 : (j, Span.mk pos (pos + n.length + 2) n).2.e - pos = n.length + 2 := by
        simp
        omega
      rw [he2, he1, List.take_zero]
      have hd := drop_len_app (braceName n) (mixOf rid 0 ch (j + 1)) 0
      simp only [Nat.add_zero, List.drop_zero] at hd
      rw [hbl] at hd
      rw [hd]
      simp [mixOf]

theorem goodCh_of {ch : Chunks} (h : ¬ ifxP marker9 (origOf ch)) : goodCh ch := by
  induction ch with
  | last t => exact h
  | cons t n r ih =>
    refine ⟨?_, ?_, ih ?_⟩
    · intro hm
      exact h (ifx_appL _ (ifx_appL _ hm))
    · intro hm
      apply h
      apply ifx_appL
      apply ifx_appR
      rcases hm with ⟨a, b, hab⟩
      exact ⟨lbrace :: a, b ++ [rbrace], by simp [braceName, hab]⟩
    · intro hm
      exact h (ifx_appR _ hm)

theorem repr_digit {i : Nat} (hi : i ≤ 9) : (Nat.repr i).data = [Char.ofNat (48 + i)] := by
  interval_cases i <;> rfl

theorem digit_toNat {i : Nat} (hi : i ≤ 9) : (Char.ofNat (48 + i)).toNat = 48 + i := by
  interval_cases i <;> rfl

theorem tok_shape (rid : Str) {i : Nat} (hi : i ≤ 9) :
    varToken rid i = str "__DEEPL_VAR_" ++ rid ++ ['_', Char.ofNat (48 + i), '_', '_'] := by
  rw [varToken, varPre, varSuf, repr_digit hi]
  simp [str]

theorem tok_mshape (rid : Str) {i : Nat} (hi : i ≤ 9) :
    varToken rid i = ['_', '_'] ++ marker9 ++
      ('_' :: (rid ++ ['_', Char.ofNat (48 + i), '_', '_'])) := by
  rw [tok_shape rid hi]
  simp [str, marker9]

theorem tok_len (rid : Str) {i : Nat} (hi : i ≤ 9) :
    (varToken rid i).length = 16 + rid.length := by
  rw [tok_shape rid hi]
  simp [str]
  omega

theorem alnum_facts {c : Char} (h : alnumLower c = true) :
    c ≠ 'D' ∧ c ≠ '_' ∧ c ≠ lbrace ∧ c ≠ rbrace := by
  refine ⟨?_, ?_, ?_, ?_⟩ <;> intro he <;> rw [he] at h <;> exact absurd h (by decide)

theorem rid_chars {rid : Str} (hr : ridOk rid = true) :
    ∀ c ∈ rid, alnumLower c = true := by
  rw [ridOk, Bool.and_eq_true] at hr
  exact fun c hc => List.all_eq_true.mp hr.2 c hc

theorem marker9_ifx_tok (rid : Str) {i : Nat} (hi : i ≤ 9) :
    ifxP marker9 (varToken rid i) :=
  ⟨['_', '_'], '_' :: (rid ++ ['_', Char.ofNat (48 + i), '_', '_']), tok_mshape rid hi⟩

theorem rb_not_in_tok {rid : Str} (hr : ridOk rid = true) {i : Nat} (hi : i ≤ 9) :
    rbrace ∉ varToken rid i := by
  rw [tok_shape rid hi]
  intro hm
  rcases List.mem_append.mp hm with hm | hm
  · rcases List.mem_append.mp hm with hm | hm
    · exact absurd hm (by decide)
    · exact absurd (alnum_facts (rid_chars hr _ hm)).2.2.2 (by simp)
  · simp at hm
    rcases hm with hm | hm | hm
    · exact absurd hm (by decide)
    · have h1 : rbrace.toNat = (Char.ofNat (48 + i)).toNat := by rw [hm]
      rw [digit_toNat hi] at h1
      have h125 : rbrace.toNat = 125 := by decide
      omega
    · exact absurd hm (by decide)

theorem pfx_len {t s : Str} (h : pfxP t s) : t.length ≤ s.length := by
  rcases h with ⟨b, hb⟩
  rw [hb]
  simp

theorem ifx_len {t s : Str} (h : ifxP t s) : t.length ≤ s.length := by
  rcases h with ⟨a, b, hab⟩
  rw [hab]
  simp
  omega

theorem pfx_trans {x y z : Str} (h1 : pfxP x y) (h2 : pfxP y z) : pfxP x z := by
  rcases h1 with ⟨b1, hb1⟩
  rcases h2 with ⟨b2, hb2⟩
  exact ⟨b1 ++ b2, by rw [hb2, hb1]; simp⟩

theorem take_left_app (a X : Str) : (a ++ X).take a.length = a := by
  have := take_len_app a X 0
  simpa using this

theorem D_not_in_tail {rid : Str} (hr : ridOk rid = true) {i : Nat} (hi : i ≤ 9) :
    'D' ∉ rid ++ ['_', Char.ofNat (48 + i), '_', '_'] := by
  intro hm
  rcases List.mem_append.mp hm with hm | hm
  · exact absurd (alnum_facts (rid_chars hr _ hm)).1 (by simp)
  · simp at hm
    have h1 : ('D').toNat = (Char.ofNat (48 + i)).toNat := by rw [hm]
    rw [digit_toNat hi] at h1
    have h68 : ('D').toNat = 68 := by decide
    omega

theorem D_unique {rid : Str} (hr : ridOk rid = true) {i : Nat} (hi : i ≤ 9)
    {a b : Str} (he : varToken rid i = a ++ 'D' :: b) : a = ['_', '_'] := by
  have hshape := tok_shape rid hi
  rw [List.append_assoc] at hshape
  set R : Str := rid ++ ['_', Char.ofNat (48 + i), '_', '_'] with hR
  have heq : str "__DEEPL_VAR_" ++ R = a ++ 'D' :: b := by rw [← hshape, ← he]
  have hpa : pfxP a (str "__DEEPL_VAR_" ++ R) := ⟨'D' :: b, heq⟩
  rcases pfx_app_cases hpa with ⟨f2, hf2⟩ | ⟨a2, ha2, hp2⟩
  · have hcanc : f2 ++ R = 'D' :: b := by
      rw [hf2, List.append_assoc] at heq
      exact List.append_cancel_left heq
    cases f2 with
    | nil =>
      simp at hcanc
      have hmem : 'D' ∈ R := by rw [hcanc]; exact List.mem_cons_self _ _
      rw [hR] at hmem
      exact absurd hmem (D_not_in_tail hr hi)
    | cons g f2' =>
      injection hcanc with hg _
      rw [hg] at hf2
      have hlen : a.length ≤ 11 := by
        have := congrArg List.length hf2
        simp [str] at this
        omega
      have hdrop : (str "__DEEPL_VAR_").drop a.length = 'D' :: f2' := by
        rw [hf2]
        have := drop_len_app a ('D' :: f2') 0
        simpa using this
      have htake : (str "__DEEPL_VAR_").take a.length = a := by
        rw [hf2]
        exact take_left_app a _
      have hh : ((str "__DEEPL_VAR_").drop a.length).head? = some 'D' := by
        rw [hdrop]
        rfl
      set m := a.length with hmm
      interval_cases m
      case «2» => exact htake.symm.trans (by decide)
      all_goals exact absurd hh (by decide)
  · exfalso
    rw [ha2, List.append_assoc] at heq
    have hcanc : R = a2 ++ 'D' :: b := List.append_cancel_left heq
    have hmem : 'D' ∈ R := by
      rw [hcanc]
      exact List.mem_append.mpr (Or.inr (List.mem_cons_self _ _))
    rw [hR] at hmem
    exact (D_not_in_tail hr hi) hmem

theorem M1 {rid : Str} (hr : ridOk rid = true) {i : Nat} (hi : i ≤ 9)
    {a b : Str} (he : varToken rid i = a ++ marker9 ++ b) : a = ['_', '_'] := by
  have hm : marker9 = 'D' :: str "EEPL_VAR" := rfl
  rw [hm, List.append_assoc] at he
  exact D_unique hr hi he

theorem trunc_shape (rid : Str) {j : Nat} (hj : j ≤ 9) :
    (varToken rid j).dropLast = str "__DEEPL_VAR_" ++ rid ++ ['_', Char.ofNat (48 + j), '_'] := by
  rw [tok_shape rid hj]
  have hre : str "__DEEPL_VAR_" ++ rid ++ ['_', Char.ofNat (48 + j), '_', '_'] =
      (str "__DEEPL_VAR_" ++ rid ++ ['_', Char.ofNat (48 + j), '_']) ++ ['_'] := by
    simp
  rw [hre, List.dropLast_concat]

theorem item_head2 (rid : Str) {i : Nat} {it : MItem} (hg : goodIt i it) :
    (∃ w, itemStr rid it = lbrace :: w) ∨ (∃ w, itemStr rid it = '_' :: '_' :: w) := by
  cases it with
  | ibr n => exact Or.inl ⟨n ++ [rbrace], rfl⟩
  | itok j =>
    obtain ⟨hj, _⟩ := hg
    refine Or.inr ⟨str "DEEPL_VAR_" ++ rid ++ ['_', Char.ofNat (48 + j), '_', '_'], ?_⟩
    show varToken rid j = _
    rw [tok_shape rid hj]
    rfl
  | itrunc j =>
    refine Or.inr ⟨str "DEEPL_VAR_" ++ rid ++ ['_', Char.ofNat (48 + j), '_'], ?_⟩
    show (varToken rid j).dropLast = _
    rw [trunc_shape rid hg]
    rfl

theorem npfx_skel (rid : Str) (i : Nat) {p : Str}
    (hm9 : ifxP marker9 p)
    (hnl : ∀ m : Nat, m < p.length → ((p.drop m).take 1 = [lbrace] → False))
    (hnu : ∀ m : Nat, m < p.length →
      (((p.drop m).take 2 = ['_', '_'] → False) ∧ (p.drop m = ['_'] → False))) :
    ∀ {P : MPieces}, goodM rid i P → ¬ pfxP p (flatM rid P) := by
  intro P hg h
  cases P with
  | mlast t => exact hg (ifx_trans hm9 (pfx_ifx h))
  | mseg t it r =>
    have hfl : flatM rid (MPieces.mseg t it r) = t ++ (itemStr rid it ++ flatM rid r) := by
      rw [flatM, List.append_assoc]
    rw [hfl] at h
    rcases pfx_app_cases h with hpa | ⟨t2, ht2, hp2⟩
    · exact hg.1 (ifx_trans hm9 (pfx_ifx hpa))
    · cases t2 with
      | nil =>
        simp at ht2
        rw [ht2] at hm9
        exact hg.1 hm9
      | cons c2 t2' =>
        have hd : p.drop t.length = c2 :: t2' := by
          rw [ht2]
          have := drop_len_app t (c2 :: t2') 0
          simpa using this
        have hmlt : t.length < p.length := by
          rw [ht2]
          simp
        rcases item_head2 rid hg.2.1 with ⟨w, hw⟩ | ⟨w, hw⟩
        · rcases hp2 with ⟨z, hz⟩
          rw [hw] at hz
          simp only [List.cons_append] at hz
          injection hz with h1 _
          exact hnl t.length hmlt (by rw [hd, ← h1]; rfl)
        · rcases hp2 with ⟨z, hz⟩
          rw [hw] at hz
          simp only [List.cons_append] at hz
          injection hz with h1 hz2
          cases t2' with
          | nil => exact (hnu t.length hmlt).2 (by rw [hd, ← h1])
          | cons c3 t2'' =>
            injection hz2 with h3 _
            exact (hnu t.length hmlt).1 (by rw [hd, ← h1, ← h3]; rfl)

theorem ns_marker {rid : Str} {i : Nat} {P : MPieces} (hg : goodM rid i P) :
    ¬ pfxP marker9 (flatM rid P) :=
  npfx_skel rid i ⟨[], [], by simp⟩ (by decide) (by decide) hg

theorem ns_umarker {rid : Str} {i : Nat} {P : MPieces} (hg : goodM rid i P) :
    ¬ pfxP ('_' :: marker9) (flatM rid P) :=
  npfx_skel rid i ⟨['_'], [], by simp⟩ (by decide) (by decide) hg

theorem tok_ne (rid : Str) {i : Nat} (hi : i ≤ 9) : varToken rid i ≠ [] := by
  intro h
  have := congrArg List.length h
  rw [tok_len rid hi] at this
  simp at this

theorem drop_of_eq_app {T t1 t2 : Str} (h : T = t1 ++ t2) : T.drop t1.length = t2 := by
  rw [h]
  have := drop_len_app t1 t2 0
  simpa using this

theorem take_of_eq_app {T t1 t2 : Str} (h : T = t1 ++ t2) : T.take t1.length = t1 := by
  rw [h]
  exact take_left_app t1 t2

theorem sfx_snoc {t1 l : Str} {c : Char} (h : sfxP t1 (l ++ [c])) (hn : t1 ≠ []) :
    ∃ t1', t1 = t1' ++ [c] := by
  rcases h with ⟨a, ha⟩
  rcases List.eq_nil_or_concat t1 with hnil | ⟨ys, y, hys⟩
  · exact absurd hnil hn
  · rw [List.concat_eq_append] at hys
    rw [hys] at ha
    rw [← List.append_assoc] at ha
    have := (List.append_inj' ha rfl).2
    injection this with hcy
    exact ⟨ys, by rw [hys, hcy]⟩

theorem sfx_snoc2 {t1 l : Str} {c1 c2 : Char} (h : sfxP t1 (l ++ [c1, c2]))
    (hn : 2 ≤ t1.length) : ∃ t1', t1 = t1' ++ [c1, c2] := by
  have hsplit : l ++ [c1, c2] = (l ++ [c1]) ++ [c2] := by simp
  rw [hsplit] at h
  obtain ⟨ys, hys⟩ := sfx_snoc h (by intro hh; rw [hh] at hn; simp at hn)
  rcases h with ⟨a, ha⟩
  rw [hys] at ha
  rw [← List.append_assoc] at ha
  have h2 := (List.append_inj' ha rfl).1
  -- h2 : l ++ [c1] = a ++ ys
  have hyn : ys ≠ [] := by
    intro hh
    rw [hh] at hys
    rw [hys] at hn
    simp at hn
  obtain ⟨ys', hys'⟩ := sfx_snoc ⟨a, h2⟩ hyn
  exact ⟨ys', by rw [hys, hys']; simp⟩

theorem tok_drop_le (rid : Str) {i : Nat} (hi : i ≤ 9) {k : Nat} (hk : k ≤ 12) :
    (varToken rid i).drop k =
      (str "__DEEPL_VAR_").drop k ++ (rid ++ ['_', Char.ofNat (48 + i), '_', '_']) := by
  rw [tok_shape rid hi, List.append_assoc, List.drop_append_eq_append_drop]
  have h0 : k - (str "__DEEPL_VAR_").length = 0 := by simp [str]; omega
  rw [h0, List.drop_zero]

theorem tok_take_le (rid : Str) {i : Nat} (hi : i ≤ 9) {k : Nat} (hk : k ≤ 12) :
    (varToken rid i).take k = (str "__DEEPL_VAR_").take k := by
  rw [tok_shape rid hi, List.append_assoc, List.take_append_eq_append_take]
  have h0 : k - (str "__DEEPL_VAR_").length = 0 := by simp [str]; omega
  rw [h0, List.take_zero, List.append_nil]

theorem t1_long (rid : Str) {i : Nat} (hi : i ≤ 9) {t1 t2 : Str}
    (he : varToken rid i = t1 ++ t2) (hl : 11 ≤ t1.length) :
    ∃ w, t1 = ['_', '_'] ++ marker9 ++ w := by
  have ht1 : t1 = (varToken rid i).take t1.length := (take_of_eq_app he).symm
  rw [tok_mshape rid hi] at ht1
  have hk : t1.length = (['_', '_'] ++ marker9 : Str).length + (t1.length - 11) := by
    simp [marker9, str]
    omega
  rw [hk, take_len_app] at ht1
  exact ⟨_, ht1⟩

theorem tok_not_in_brace {rid : Str} (hr : ridOk rid = true) {i : Nat} (hi : i ≤ 9)
    {n : Str} (hn : ¬ ifxP marker9 n) : ¬ ifxP (varToken rid i) (braceName n) := by
  intro h
  have hT := tok_ne rid hi
  have hbn : braceName n = [lbrace] ++ (n ++ [rbrace]) := by simp [braceName]
  rw [hbn] at h
  rcases ifx_split h hT with h | h | ⟨t1, t2, ht12, h1, h2, hs1, hp2⟩
  · have := ifx_len h
    rw [tok_len rid hi] at this
    simp at this
    omega
  · rcases ifx_split h hT with h | h | ⟨t1, t2, ht12, h1, h2, hs1, hp2⟩
    · exact hn (ifx_trans (marker9_ifx_tok rid hi) h)
    · have := ifx_len h
      rw [tok_len rid hi] at this
      simp at this
      omega
    · have ht2 : t2 = [rbrace] := by
        rcases hp2 with ⟨z, hz⟩
        cases t2 with
        | nil => exact absurd rfl h2
        | cons d t2' =>
          injection hz with ha hb
          have h0 : t2' = [] := by
            cases t2' with
            | nil => rfl
            | cons _ _ => exact absurd hb.symm (by simp)
          rw [h0, ha]
      have hmem : rbrace ∈ varToken rid i := by
        rw [ht12, ht2]
        simp
      exact rb_not_in_tok hr hi hmem
  · have ht1 : t1 = [lbrace] := by
      rcases hs1 with ⟨a, ha⟩
      cases a with
      | nil => simpa using ha.symm
      | cons x a' =>
        injection ha with hx hrest
        exfalso
        apply h1
        cases a' with
        | nil => exact hrest.symm
        | cons _ _ => exact absurd hrest.symm (by simp)
    have hcons : varToken rid i = lbrace :: t2 := by
      rw [ht12, ht1]
      rfl
    have h0 : (str "__DEEPL_VAR_" ++ (rid ++ ['_', Char.ofNat (48 + i), '_', '_'])).head? =
        some '_' := rfl
    rw [← List.append_assoc, ← tok_shape rid hi, hcons] at h0
    injection h0 with h0
    exact absurd h0 (by decide)

theorem tok_not_in_tok {rid : Str} (hr : ridOk rid = true) {i j : Nat}
    (hi : i ≤ 9) (hj : j ≤ 9) (hne : j ≠ i) :
    ¬ ifxP (varToken rid i) (varToken rid j) := by
  intro h
  rcases h with ⟨a, b, hab⟩
  have hla := congrArg List.length hab
  rw [tok_len rid hj] at hla
  simp [tok_len rid hi] at hla
  have ha0 : a = [] := List.eq_nil_of_length_eq_zero (by omega)
  have hb0 : b = [] := List.eq_nil_of_length_eq_zero (by omega)
  rw [ha0, hb0] at hab
  simp at hab
  rw [tok_shape rid hj, tok_shape rid hi] at hab
  have hc := List.append_cancel_left hab
  injection hc with _ hc
  injection hc with hc _
  have := congrArg Char.toNat hc
  rw [digit_toNat hj, digit_toNat hi] at this
  omega

theorem trunc_len (rid : Str) {j : Nat} (hj : j ≤ 9) :
    ((varToken rid j).dropLast).length = 15 + rid.length := by
  rw [trunc_shape rid hj]
  simp [str]
  omega

theorem tok_not_in_trunc {rid : Str} {i j : Nat} (hi : i ≤ 9) (hj : j ≤ 9) :
    ¬ ifxP (varToken rid i) ((varToken rid j).dropLast) := by
  intro h
  have := ifx_len h
  rw [tok_len rid hi, trunc_len rid hj] at this
  omega

theorem tok_not_in_item {rid : Str} (hr : ridOk rid = true) {i : Nat} (hi : i ≤ 9)
    {it : MItem} (hg : goodIt i it) : ¬ ifxP (varToken rid i) (itemStr rid it) := by
  cases it with
  | ibr n => exact tok_not_in_brace hr hi hg
  | itok j => exact tok_not_in_tok hr hi hg.1 hg.2
  | itrunc j => exact tok_not_in_trunc hi hg

theorem A_heads : ∀ k, k ≤ 10 → 1 ≤ k →
    ((str "__DEEPL_VAR_").drop k).take 1 ≠ [lbrace] ∧
    ((str "__DEEPL_VAR_").drop k).take 2 ≠ ['_', '_'] ∧
    2 ≤ ((str "__DEEPL_VAR_").drop k).length := by decide

theorem UU_take : ∀ k, k ≤ 10 → 3 ≤ k →
    ((str "__DEEPL_VAR_").take k).drop (k - 2) ≠ ['_', '_'] := by decide

theorem head_clash {x R itemS Y : Str} (hx2 : 2 ≤ x.length)
    (hz : pfxP (x ++ R) (itemS ++ Y))
    (hl : (∃ w, itemS = lbrace :: w) ∨ (∃ w, itemS = '_' :: '_' :: w))
    (h1 : x.take 1 ≠ [lbrace]) (h2 : x.take 2 ≠ ['_', '_']) : False := by
  cases x with
  | nil => simp at hx2
  | cons c1 x' =>
    cases x' with
    | nil => simp at hx2
    | cons c2 x'' =>
      rcases hz with ⟨z, hz⟩
      simp only [List.cons_append] at hz
      rcases hl with ⟨w, hw⟩ | ⟨w, hw⟩
      · rw [hw] at hz
        simp only [List.cons_append] at hz
        injection hz with hh _
        exact h1 (by rw [← hh]; rfl)
      · rw [hw] at hz
        simp only [List.cons_append] at hz
        injection hz with hh hz2
        injection hz2 with hh2 _
        exact h2 (by rw [← hh, ← hh2]; rfl)

theorem master {rid : Str} (hr : ridOk rid = true) {i : Nat} (hi : i ≤ 9) :
    ∀ {P : MPieces}, goodM rid i P → ¬ ifxP (varToken rid i) (flatM rid P) := by
  intro P
  induction P with
  | mlast t =>
    intro hg h
    exact hg (ifx_trans (marker9_ifx_tok rid hi) h)
  | mseg t it r ih =>
    intro hg h
    obtain ⟨hgt, hgit, hgtr, hgr⟩ := hg
    have hT := tok_ne rid hi
    have hfl : flatM rid (MPieces.mseg t it r) = t ++ (itemStr rid it ++ flatM rid r) := by
      rw [flatM, List.append_assoc]
    rw [hfl] at h
    rcases ifx_split h hT with h | h | ⟨t1, t2, ht12, hn1, hn2, hs1, hp2⟩
    · exact hgt (ifx_trans (marker9_ifx_tok rid hi) h)
    · rcases ifx_split h hT with h | h | ⟨t1, t2, ht12, hn1, hn2, hs1, hp2⟩
      · exact tok_not_in_item hr hi hgit h
      · exact ih hgr h
      · cases it with
        | ibr n =>
          have hsn : sfxP t1 ((lbrace :: n) ++ [rbrace]) := by
            have hb : itemStr rid (MItem.ibr n) = (lbrace :: n) ++ [rbrace] := by
              simp [itemStr, braceName]
            rwa [hb] at hs1
          obtain ⟨t1', ht1'⟩ := sfx_snoc hsn hn1
          have hmem : rbrace ∈ varToken rid i := by
            rw [ht12, ht1']
            simp
          exact rb_not_in_tok hr hi hmem
        | itok j =>
          obtain ⟨hj, hji⟩ := hgit
          by_cases hk : 11 ≤ t1.length
          · obtain ⟨w, hw⟩ := t1_long rid hi ht12 hk
            rcases hs1 with ⟨a, ha⟩
            rw [hw] at ha
            have hav : varToken rid j = a ++ (['_', '_'] ++ marker9 ++ w) := ha
            have ha' : varToken rid j = (a ++ ['_', '_']) ++ marker9 ++ w := by
              rw [hav]
              simp
            have ha2 := M1 hr hj ha'
            have haa : a = [] := by
              have hl2 := congrArg List.length ha2
              simp at hl2
              first
              | exact hl2
              | exact List.eq_nil_of_length_eq_zero hl2
            rw [haa] at hav
            simp at hav
            have ht1tok : t1 = varToken rid j := by
              rw [hw, hav]
              simp
            have hlen := congrArg List.length ht12
            rw [tok_len rid hi, List.length_append, ht1tok, tok_len rid hj] at hlen
            exact hn2 (List.eq_nil_of_length_eq_zero (by omega))
          · have hk1 : 1 ≤ t1.length := by
              cases t1 with
              | nil => exact absurd rfl hn1
              | cons _ _ => simp
            have ht2d : t2 = (varToken rid i).drop t1.length := (drop_of_eq_app ht12).symm
            by_cases hk2 : t1.length = 1
            · have hsh : varToken rid i =
                  '_' :: '_' :: (marker9 ++ ('_' :: (rid ++ ['_', Char.ofNat (48 + i), '_', '_']))) := by
                rw [tok_mshape rid hi]
                rfl
              rw [hk2, hsh] at ht2d
              have hpm : pfxP ('_' :: marker9) t2 := by
                rw [ht2d]
                exact ⟨'_' :: (rid ++ ['_', Char.ofNat (48 + i), '_', '_']), by simp⟩
              exact ns_umarker hgr (pfx_trans hpm hp2)
            · by_cases hk3 : t1.length = 2
              · have hsh : varToken rid i =
                    '_' :: '_' :: (marker9 ++ ('_' :: (rid ++ ['_', Char.ofNat (48 + i), '_', '_']))) := by
                  rw [tok_mshape rid hi]
                  rfl
                rw [hk3, hsh] at ht2d
                have hpm : pfxP marker9 t2 := by
                  rw [ht2d]
                  exact ⟨'_' :: (rid ++ ['_', Char.ofNat (48 + i), '_', '_']), by simp⟩
                exact ns_marker hgr (pfx_trans hpm hp2)
              · -- 3 ≤ t1.length ≤ 10
                have hge3 : 3 ≤ t1.length := by omega
                have hle10 : t1.length ≤ 10 := by omega
                have hsfx2 : sfxP t1 ((str "__DEEPL_VAR_" ++ rid ++ ['_', Char.ofNat (48 + j)]) ++ ['_', '_']) := by
                  have hb : itemStr rid (MItem.itok j) =
                      (str "__DEEPL_VAR_" ++ rid ++ ['_', Char.ofNat (48 + j)]) ++ ['_', '_'] := by
                    show varToken rid j = _
                    rw [tok_shape rid hj]
                    simp
                  rwa [hb] at hs1
                obtain ⟨t1', ht1'⟩ := sfx_snoc2 hsfx2 (by omega)
                have hlen' : t1'.length = t1.length - 2 := by
                  have := congrArg List.length ht1'
                  simp at this
                  omega
                have htk : t1 = (str "__DEEPL_VAR_").take t1.length := by
                  rw [← tok_take_le rid hi (by omega)]
                  exact (take_of_eq_app ht12).symm
                have hdd : ((str "__DEEPL_VAR_").take t1.length).drop (t1.length - 2) = ['_', '_'] := by
                  rw [← htk]
                  have hnum : t1.length - 2 = t1'.length := by omega
                  rw [hnum, ht1']
                  have := drop_len_app t1' ['_', '_'] 0
                  simpa using this
                exact UU_take t1.length hle10 hge3 hdd
        | itrunc j =>
          have hflr : flatM rid r = [] := hgtr
          rw [hflr] at hp2
          rcases hp2 with ⟨z, hz⟩
          cases t2 with
          | nil => exact hn2 rfl
          | cons _ _ => exact absurd hz (by simp)
    · by_cases hk : 11 ≤ t1.length
      · obtain ⟨w, hw⟩ := t1_long rid hi ht12 hk
        apply hgt
        apply ifx_trans _ (sfx_ifx hs1)
        rw [hw]
        exact ⟨['_', '_'], w, rfl⟩
      · have hk1 : 1 ≤ t1.length := by
          cases t1 with
          | nil => exact absurd rfl hn1
          | cons _ _ => simp
        have ht2d : t2 = (str "__DEEPL_VAR_").drop t1.length ++
            (rid ++ ['_', Char.ofNat (48 + i), '_', '_']) := by
          rw [← tok_drop_le rid hi (by omega)]
          exact (drop_of_eq_app ht12).symm
        have hA := A_heads t1.length (by omega) hk1
        rw [ht2d] at hp2
        exact head_clash hA.2.2 hp2 (item_head2 rid hgit) hA.1 hA.2.1

theorem flatM_msnoc (rid : Str) (it : MItem) : ∀ P : MPieces,
    flatM rid (msnoc P it) = flatM rid P ++ itemStr rid it := by
  intro P
  induction P with
  | mlast t => simp [msnoc, flatM]
  | mseg t it2 r ih => simp [msnoc, flatM, ih]

theorem toks_flat (rid : Str) (m : Nat) : ∀ (r : Chunks) (k : Nat), m ≤ k →
    mixOf rid m r k = flatM rid (toksPieces r k) := by
  intro r
  induction r with
  | last t => intro k _; rfl
  | cons t n r ih =>
    intro k hk
    rw [mixOf, toksPieces, flatM, if_neg (by omega), ih (k + 1) (by omega)]
    rfl

theorem toks_good (rid : Str) (i : Nat) : ∀ (r : Chunks) (k : Nat), goodCh r →
    i < k → k + slotsOf r ≤ 10 → goodM rid i (toksPieces r k) := by
  intro r
  induction r with
  | last t => intro k hg _ _; exact hg
  | cons t n r ih =>
    intro k hg hik hbound
    have hs : slotsOf (Chunks.cons t n r) = slotsOf r + 1 := rfl
    rw [hs] at hbound
    exact ⟨hg.1, ⟨by omega, by omega⟩, trivial, ih (k + 1) hg.2.2 (by omega) (by omega)⟩

theorem mix_dec (rid : Str) (i : Nat) : ∀ (ch : Chunks) (j : Nat), goodCh ch →
    j ≤ i → i < j + slotsOf ch → j + slotsOf ch ≤ 10 →
    ∃ PA PB : MPieces,
      mixOf rid i ch j = flatM rid PA ++ varToken rid i ++ flatM rid PB ∧
      mixOf rid (i + 1) ch j =
        flatM rid PA ++ braceName ((namesOf ch).getD (i - j) []) ++ flatM rid PB ∧
      goodM rid i (msnoc PA (MItem.itrunc i)) ∧ goodM rid i PB := by
  intro ch
  induction ch with
  | last t =>
    intro j _ _ hlt _
    rw [slotsOf] at hlt
    omega
  | cons t n r ih =>
    intro j hg hle hlt hbound
    have hs : slotsOf (Chunks.cons t n r) = slotsOf r + 1 := rfl
    rw [hs] at hlt hbound
    by_cases hji : j = i
    · refine ⟨MPieces.mlast t, toksPieces r (j + 1), ?_, ?_, ?_, ?_⟩
      · rw [mixOf, if_neg (by omega), ← toks_flat rid i r (j + 1) (by omega), hji]
        rfl
      · rw [mixOf, if_pos (by omega), ← toks_flat rid (i + 1) r (j + 1) (by omega)]
        have h0 : i - j = 0 := by omega
        rw [h0]
        rfl
      · refine ⟨hg.1, show i ≤ 9 by omega, rfl, ?_⟩
        intro hifx
        have := ifx_len hifx
        simp [marker9, str] at this
      · exact toks_good rid i r (j + 1) hg.2.2 (by omega) (by omega)
    · obtain ⟨PA', PB, h1, h2, h3, h4⟩ := ih (j + 1) hg.2.2 (by omega) (by omega) (by omega)
      refine ⟨MPieces.mseg t (MItem.ibr n) PA', PB, ?_, ?_, ?_, h4⟩
      · rw [mixOf, if_pos (by omega), h1, flatM]
        simp [itemStr]
      · rw [mixOf, if_pos (by omega), h2, flatM]
        have hgd : (namesOf (Chunks.cons t n r)).getD (i - j) [] =
            (namesOf r).getD (i - (j + 1)) [] := by
          rw [namesOf]
          have hsplit : i - j = (i - (j + 1)) + 1 := by omega
          rw [hsplit]
          rfl
        rw [hgd]
        simp [itemStr]
      · exact ⟨hg.1, hg.2.1, trivial, h3⟩

theorem step_one (rid : Str) (hr : ridOk rid = true) (i : Nat) (ch : Chunks) (j : Nat)
    (hg : goodCh ch) (hle : j ≤ i) (hlt : i < j + slotsOf ch) (hb : j + slotsOf ch ≤ 10) :
    replaceAllLit (varToken rid i) (braceName ((namesOf ch).getD (i - j) []))
      (mixOf rid i ch j) = mixOf rid (i + 1) ch j := by
  have hi9 : i ≤ 9 := by omega
  obtain ⟨PA, PB, h1, h2, h3, h4⟩ := mix_dec rid i ch j hg hle hlt hb
  rw [h1, h2]
  apply ral_at (tok_ne rid hi9)
  · intro hocc
    apply master hr hi9 h3
    rw [flatM_msnoc]
    exact hocc
  · exact master hr hi9 h4

theorem mix_orig (rid : Str) (K : Nat) : ∀ (ch : Chunks) (j : Nat),
    j + slotsOf ch ≤ K → mixOf rid K ch j = origOf ch := by
  intro ch
  induction ch with
  | last t => intro j _; rfl
  | cons t n r ih =>
    intro j hb
    have hs : slotsOf (Chunks.cons t n r) = slotsOf r + 1 := rfl
    rw [hs] at hb
    rw [mixOf, origOf, if_pos (by omega), ih (j + 1) (by omega)]

theorem getD_of_drop : ∀ (l : List Str) (j : Nat) (x : Str) (xs : List Str),
    l.drop j = x :: xs → l.getD j [] = x := by
  intro l
  induction l with
  | nil => intro j x xs h; simp at h
  | cons y l' ih =>
    intro j x xs h
    cases j with
    | zero =>
      injection h
    | succ j' =>
      simp only [List.getD_cons_succ]
      exact ih j' x xs h

theorem fold_restore (rid : Str) (hr : ridOk rid = true) (ch : Chunks) (hg : goodCh ch)
    (hb : slotsOf ch ≤ 10) : ∀ (vs : List Span) (j : Nat),
    vs.map Span.name = (namesOf ch).drop j →
    j + vs.length = slotsOf ch →
    List.foldl (fun acc iv => replaceAllLit (varToken rid iv.1) (braceName iv.2.name) acc)
      (mixOf rid j ch 0) (List.enumFrom j vs) = mixOf rid (slotsOf ch) ch 0 := by
  intro vs
  induction vs with
  | nil =>
    intro j _ hcount
    simp at hcount
    rw [hcount]
    rfl
  | cons v vs' ih =>
    intro j hnames hcount
    have hdropj : (namesOf ch).drop j = v.name :: vs'.map Span.name := by
      rw [← hnames]
      rfl
    have hcount' : j + (vs'.length + 1) = slotsOf ch := by
      simpa using hcount
    have hstep := step_one rid hr j ch 0 hg (by omega) (by omega) (by omega)
    have hgd : (namesOf ch).getD (j - 0) [] = v.name := by
      have := getD_of_drop (namesOf ch) j v.name (vs'.map Span.name) hdropj
      simpa using this
    rw [hgd] at hstep
    show List.foldl _
      (replaceAllLit (varToken rid j) (braceName v.name) (mixOf rid j ch 0))
      (List.enumFrom (j + 1) vs') = _
    rw [hstep]
    refine ih (j + 1) ?_ (by omega)
    have hdd : ((namesOf ch).drop j).drop 1 = vs'.map Span.name := by
      rw [hdropj]
      rfl
    rw [← hdd, List.drop_drop]

theorem dollarSub_nodollar (matched pre post : Str) :
    ∀ (f : Nat) (r : Str), '$' ∉ r → dollarSub matched pre post f r = r := by
  intro f
  induction f with
  | zero => intro r _; rfl
  | succ f ih =>
    intro r hr
    cases r with
    | nil => rfl
    | cons c rest =>
      have hc : ¬ c = '$' := fun h => hr (by rw [h]; exact List.mem_cons_self _ _)
      simp only [dollarSub]
      rw [if_neg hc, ih rest (fun h => hr (List.mem_cons_of_mem _ h))]

theorem scanReplS_nodollar (m : Str → Option Str) {repl : Str} (hd : '$' ∉ repl)
    (whole : Str) : ∀ (f : Nat) (pos : Nat) (s : Str),
    scanReplS m repl whole f pos s = scanRepl m repl f s := by
  intro f
  induction f with
  | zero =>
    intro pos s
    cases s <;> rfl
  | succ f ih =>
    intro pos s
    cases s with
    | nil => rfl
    | cons c s' =>
      cases hm : m (c :: s') with
      | none =>
        simp only [scanReplS, scanRepl, hm]
        rw [ih]
      | some rem =>
        simp only [scanReplS, scanRepl, hm]
        by_cases hlt : rem.length < s'.length + 1
        · rw [if_pos hlt, if_pos hlt, ih, dollarSub_nodollar _ _ _ _ _ hd]
        · rw [if_neg hlt, if_neg hlt, ih]

theorem ralS_nodollar (t : Str) {repl : Str} (hd : '$' ∉ repl) (s : Str) :
    replaceAllLitS t repl s = replaceAllLit t repl s := by
  rw [replaceAllLitS, replaceAllLit, jsReplaceAllS, jsReplaceAll]
  exact scanReplS_nodollar _ hd _ _ _ _

theorem nodollar_braceName {n : Str} (hn : '$' ∉ n) : '$' ∉ braceName n := by
  intro hm
  rw [braceName] at hm
  rcases List.mem_cons.mp hm with hm | hm
  · exact absurd hm (by decide)
  · rcases List.mem_append.mp hm with hm | hm
    · exact hn hm
    · simp at hm
      exact absurd hm (by decide)

theorem restore_nodollar (rid : Str) (vars : List Span) (t : Str)
    (h : ∀ v ∈ vars, '$' ∉ v.name) :
    restoreVars rid vars t = vars.enum.foldl
      (fun acc iv => replaceAllLit (varToken rid iv.1) (braceName iv.2.name) acc) t := by
  rw [restoreVars]
  have hgen : ∀ (l : List (Nat × Span)) (acc : Str), (∀ iv ∈ l, '$' ∉ iv.2.name) →
      List.foldl
        (fun acc iv => replaceAllLitS (varToken rid iv.1) (braceName iv.2.name) acc) acc l =
      List.foldl
        (fun acc iv => replaceAllLit (varToken rid iv.1) (braceName iv.2.name) acc) acc l := by
    intro l
    induction l with
    | nil => intro acc _; rfl
    | cons iv l' ih =>
      intro acc hl
      rw [List.foldl_cons, List.foldl_cons,
        ralS_nodollar _ (nodollar_braceName (hl iv (List.mem_cons_self _ _))) _,
        ih _ (fun x hx => hl x (List.mem_cons_of_mem _ hx))]
  exact hgen _ t (fun iv hiv => h iv.2 (enumFrom_snd_mem hiv))

theorem span_name_chars {pos : Nat} {s : Str} {sp : List Span}
    (h : ExtractsFrom pos s sp) : ∀ v ∈ sp, ∀ c, c ∈ v.name → c ∈ s := by
  induction h with
  | done => intro v hv; exact absurd hv (by simp)
  | skip pos c s' sp _ _ ih =>
    intro v hv d hd
    exact List.mem_cons_of_mem _ (ih v hv d hd)
  | found pos s n r sp hcap _ ih =>
    intro v hv d hd
    rw [(varCapM_eq hcap).1]
    rcases List.mem_cons.mp hv with hv | hv
    · rw [hv] at hd
      exact List.mem_cons_of_mem _ (List.mem_append.mpr (Or.inl hd))
    · exact List.mem_cons_of_mem _
        (List.mem_append.mpr (Or.inr (List.mem_cons_of_mem _ (ih v hv d hd))))

/-- Claim C6 (counterexample): a single well-formed marker whose name carries
the replacement sequence dollar-ampersand is not round-tripped: the restore
step's string replacement substitutes the matched token for the sequence, so
the output keeps the token instead of the original name. -/
theorem c6_counterexample :
    restoreVars rid0 (extractVars [lbrace, 'a', '$', '&', rbrace])
        (maskVars rid0 [lbrace, 'a', '$', '&', rbrace]) =
      lbrace :: 'a' :: (varToken rid0 0 ++ [rbrace]) ∧
    lbrace :: 'a' :: (varToken rid0 0 ++ [rbrace]) ≠ [lbrace, 'a', '$', '&', rbrace] ∧
    containsLit marker9 [lbrace, 'a', '$', '&', rbrace] = false ∧
    (extractVars [lbrace, 'a', '$', '&', rbrace]).length = 1 :=
  ⟨by decide, by decide, by decide, by decide⟩

/-- Claim C6 (amended): masking the placeholders of a marker-free text free of
the dollar character and then restoring them recovers the text exactly, for
0, 1 or 5 placeholders. -/
theorem c6_amended (s rid : Str) (hr : ridOk rid = true)
    (hm : containsLit marker9 s = false)
    (hd : '$' ∉ s)
    (hN : (extractVars s).length = 0 ∨ (extractVars s).length = 1 ∨
      (extractVars s).length = 5) :
    restoreVars rid (extractVars s) (maskVars rid s) = s := by
  have hext : ExtractsFrom 0 s (extractVars s) := extract_spec s.length 0 s (le_refl _)
  have hnames : ∀ v ∈ extractVars s, '$' ∉ v.name := by
    intro v hv hc
    exact hd (span_name_chars hext v hv '$' hc)
  rw [restore_nodollar rid _ _ hnames]
  obtain ⟨ch, h1, h2, h3, h4⟩ := chunks_of_extract rid hext
  have hmask : maskVars rid s = mixOf rid 0 ch 0 := by
    rw [maskVars]
    exact h4 0
  have hnoifx : ¬ ifxP marker9 s := by
    intro hifx
    rw [(containsLit_iff _ _).mpr hifx] at hm
    cases hm
  have hgood : goodCh ch := goodCh_of (by rw [← h1]; exact hnoifx)
  have hslots : slotsOf ch ≤ 10 := by
    rw [h3]
    rcases hN with h | h | h <;> omega
  rw [hmask]
  have hfold := fold_restore rid hr ch hgood hslots (extractVars s) 0
    (by rw [h2]; rfl) (by rw [h3]; omega)
  rw [show (extractVars s).enum = List.enumFrom 0 (extractVars s) from rfl]
  rw [hfold, mix_orig rid (slotsOf ch) ch 0 (by omega)]
  exact h1.symm

/-- Witness for the amended C6 at a concrete one-placeholder input. -/
theorem c6_amended_witness :
    ridOk rid0 = true ∧
      restoreVars rid0 (extractVars (str "Hi {count}!"))
        (maskVars rid0 (str "Hi {count}!")) = str "Hi {count}!" :=
  ⟨by decide, c6_amended _ rid0 (by decide) (by decide) (by decide) (by decide)⟩
